import Mathlib

/-!
# Verification of the contrib.club aggregation and reaction code

This file gives a shallow embedding, in Lean 4, of the data model and the
algorithms of the contrib.club site server code (the load-aggregation pass
in `src/routes/+page.server.ts` and the reaction endpoint in
`src/routes/api/blogs/[slug]/reaction/+server.ts`), and proves properties
of that embedding.

Modelling conventions, used throughout:
* JavaScript objects and `Map`s keyed by strings are modelled as
  association lists `List (String × α)` with first-match lookup; the code
  under verification only builds such maps through the operations below,
  which keep keys unique, so first-match and JS semantics agree.
* JavaScript numbers holding counters are modelled as `Int` (they are
  manipulated by integer arithmetic only); JSON numbers, which can be
  fractional, are modelled as `Rat`.
* Timestamps (`Date.now()`, `new Date(s).getTime()`) are modelled as `Int`
  milliseconds; ISO date strings are represented by their millisecond
  value, which is order-isomorphic to the string comparison the code
  performs through `new Date(...).getTime()`.
* Network responses are supplied by oracles (explicit arguments), and the
  number of upstream requests actually issued is returned alongside the
  result wherever a claim speaks about upstream calls.
-/

namespace ContribClub

/-- First-match lookup in an association list, the model of reading a
property `m[key]` of a JS object used as a string-keyed dictionary. -/
def lookupKV {α : Type} : List (String × α) → String → Option α
  | [], _ => none
  | (k, v) :: rest, key => if k = key then some v else lookupKV rest key

/-- Key-presence test, the model of `key in m` / `m.has(key)`. -/
def hasKV {α : Type} (m : List (String × α)) (k : String) : Bool :=
  (lookupKV m k).isSome

/-- The model of the assignment `m[key] = v`: replace the value in place
when the key is present, append a new entry otherwise (JS objects and
`Map`s keep the original insertion position on overwrite). -/
def setKV {α : Type} : List (String × α) → String → α → List (String × α)
  | [], k, v => [(k, v)]
  | (k', v') :: rest, k, v =>
    if k' = k then (k, v) :: rest else (k', v') :: setKV rest k v

/-- The model of `delete m[key]`. -/
def eraseKV {α : Type} : List (String × α) → String → List (String × α)
  | [], _ => []
  | (k', v') :: rest, k => if k' = k then rest else (k', v') :: eraseKV rest k

/-- The keys of an association list. -/
def keysKV {α : Type} (m : List (String × α)) : List String :=
  m.map Prod.fst

theorem lookupKV_setKV_self {α : Type} (m : List (String × α)) (k : String) (v : α) :
    lookupKV (setKV m k v) k = some v := by
  induction m with
  | nil => simp [setKV, lookupKV]
  | cons hd tl ih =>
    obtain ⟨k', v'⟩ := hd
    by_cases h : k' = k
    · simp [setKV, lookupKV, h]
    · simp [setKV, lookupKV, h, ih]

theorem lookupKV_setKV_ne {α : Type} (m : List (String × α)) (k k' : String) (v : α)
    (h : k' ≠ k) : lookupKV (setKV m k v) k' = lookupKV m k' := by
  have hne : ¬ k = k' := fun hh => h hh.symm
  induction m with
  | nil => simp [setKV, lookupKV, hne]
  | cons hd tl ih =>
    obtain ⟨k₀, v₀⟩ := hd
    by_cases hk : k₀ = k
    · subst hk
      simp [setKV, lookupKV, hne]
    · simp only [setKV, if_neg hk, lookupKV]
      by_cases hk' : k₀ = k'
      · simp [hk']
      · simp [hk', ih]

theorem lookupKV_eq_none_of_not_mem {α : Type} (m : List (String × α)) (k : String)
    (h : k ∉ keysKV m) : lookupKV m k = none := by
  induction m with
  | nil => simp [lookupKV]
  | cons hd tl ih =>
    obtain ⟨k₀, v₀⟩ := hd
    simp only [keysKV, List.map_cons, List.mem_cons] at h
    push_neg at h
    have hk : ¬ k₀ = k := fun hh => h.1 hh.symm
    simp only [lookupKV, if_neg hk]
    exact ih h.2

theorem lookupKV_eraseKV_self {α : Type} (m : List (String × α)) (k : String)
    (hnd : (keysKV m).Nodup) : lookupKV (eraseKV m k) k = none := by
  induction m with
  | nil => simp [eraseKV, lookupKV]
  | cons hd tl ih =>
    obtain ⟨k₀, v₀⟩ := hd
    simp only [keysKV, List.map_cons, List.nodup_cons] at hnd
    by_cases hk : k₀ = k
    · subst hk
      simp only [eraseKV, if_pos rfl]
      exact lookupKV_eq_none_of_not_mem tl k₀ hnd.1
    · simp only [eraseKV, if_neg hk, lookupKV, if_neg hk]
      exact ih hnd.2

theorem lookupKV_eraseKV_ne {α : Type} (m : List (String × α)) (k k' : String)
    (h : k' ≠ k) : lookupKV (eraseKV m k) k' = lookupKV m k' := by
  induction m with
  | nil => simp [eraseKV]
  | cons hd tl ih =>
    obtain ⟨k₀, v₀⟩ := hd
    by_cases hk : k₀ = k
    · subst hk
      simp only [eraseKV, if_pos rfl, lookupKV]
      have : ¬ k₀ = k' := fun hh => h hh.symm
      simp [this]
    · simp only [eraseKV, if_neg hk, lookupKV]
      by_cases hk' : k₀ = k'
      · simp [hk']
      · simp [hk', ih]

/-! ## C4: yearly commit-activity windowing

Embeds `+page.server.ts` lines 949‑965: the weekly commit-activity
response is flattened (`weeks.flatMap(week => week.days ?? [])`) and
trimmed with `.slice(-364)`; the result is stored into
`repoStats[repoUrl]` preserving the stars/forks already recorded. -/

/-- One element of the GitHub weekly commit-activity response
(`type RepoActivity = \x7b days?: number[] \x7d`). -/
structure RepoActivity where
  days : Option (List Int)
deriving Repr, DecidableEq

/-- Per-repo stats record (`\x7b stars, forks, activity? \x7d`). -/
structure RepoStat where
  stars : Int
  forks : Int
  activity : Option (List Int)
deriving Repr, DecidableEq

/-- `Array.prototype.slice(-n)` on an array: the trailing `n` elements,
or the whole array when it is shorter.  JS computes the start index as
`max(length - n, 0)`, which is exactly truncated subtraction. -/
def sliceLast {α : Type} (n : Nat) (l : List α) : List α :=
  l.drop (l.length - n)

/-- The activity series `weeks.flatMap(week => week.days ?? []).slice(-364)`
computed by the yearly endpoint handler. -/
def activityFromWeeks (weeks : List RepoActivity) : List Int :=
  sliceLast 364 (weeks.flatMap (fun w => w.days.getD []))

/-- Lines 953‑958: store the freshly computed activity into `repoStats`,
keeping previously recorded stars/forks and defaulting them to 0. -/
def storeActivity (stats : List (String × RepoStat)) (repoUrl : String)
    (activity : List Int) : List (String × RepoStat) :=
  setKV stats repoUrl
    { stars := ((lookupKV stats repoUrl).map RepoStat.stars).getD 0
      forks := ((lookupKV stats repoUrl).map RepoStat.forks).getD 0
      activity := some activity }

/-- Spec-side description of "the last `n` elements, in order". -/
def lastElems {α : Type} (n : Nat) (l : List α) : List α :=
  (l.reverse.take n).reverse

theorem sliceLast_eq_lastElems {α : Type} (n : Nat) (l : List α) :
    sliceLast n l = lastElems n l :=
  List.rtake_eq_reverse_take_reverse l n

theorem length_sliceLast {α : Type} (n : Nat) (l : List α) :
    (sliceLast n l).length = min n l.length := by
  unfold sliceLast
  rw [List.length_drop]
  omega

/-- C4: for a flattened per-day array longer than 364 entries the stored
series is exactly the trailing 364 elements; shorter arrays are kept
whole and in order. -/
theorem activity_windowing (weeks : List RepoActivity)
    (stats : List (String × RepoStat)) (repoUrl : String) :
    let flat := weeks.flatMap (fun w => w.days.getD [])
    let act := activityFromWeeks weeks
    (flat.length ≥ 364 → act.length = 364) ∧
    (flat.length < 364 → act = flat) ∧
    act = lastElems 364 flat ∧
    (lookupKV (storeActivity stats repoUrl act) repoUrl).map RepoStat.activity
      = some (some (lastElems 364 flat)) := by
  intro flat act
  have hact : act = sliceLast 364 flat := rfl
  refine ⟨?_, ?_, ?_, ?_⟩
  · intro h
    rw [hact, length_sliceLast]
    omega
  · intro h
    rw [hact]
    unfold sliceLast
    have : flat.length - 364 = 0 := by omega
    rw [this, List.drop_zero]
  · rw [hact, sliceLast_eq_lastElems]
  · rw [storeActivity, lookupKV_setKV_self, Option.map_some']
    rw [hact, sliceLast_eq_lastElems]

set_option maxRecDepth 4000 in
/-- Witness for C4 at a concrete 500-day flattened response: 71 full weeks
and one 3-day week flatten to 500 days, and the stored series is the
trailing 364 of them. -/
theorem activity_windowing_witness :
    let weeks := List.replicate 71 (RepoActivity.mk (some [1, 2, 3, 4, 5, 6, 7]))
      ++ [RepoActivity.mk (some [8, 9, 10])]
    let flat := weeks.flatMap (fun w => w.days.getD [])
    flat.length = 500 ∧ (activityFromWeeks weeks).length = 364 ∧
    activityFromWeeks weeks = lastElems 364 flat := by
  intro weeks flat
  refine ⟨by decide, ?_, ?_⟩
  · exact (activity_windowing weeks [] "r").1 (by decide)
  · exact ((activity_windowing weeks [] "r").2.2).1

/-! ## C3: deduplicated recomputation of aggregate totals

Embeds `+page.server.ts` lines 763‑786: `combinedRepos` is built with a
JS `Map` over `[...orgRepos, ...memberRepos].filter(repo => repo.html_url)`
keyed by `html_url` (last value wins), all keys of `repoStats` are
deleted, `stars`/`forks` are reset to 0, and the totals and per-repo
stats are rebuilt from the deduplicated list. -/

/-- Repository summary as used by the load pass (`type OrgRepo`).
Optional numeric fields keep their optionality; timestamps are modelled
as milliseconds. -/
structure OrgRepo where
  name : String
  description : Option String
  html_url : String
  stargazers_count : Option Int
  forks_count : Option Int
  topics : List String
  language : Option String
  updated_at : Option Int
  created_at : Option Int
  homepage : Option String
deriving Repr, DecidableEq

/-- `new Map(entries)`: later entries overwrite earlier values for the
same key, keeping the first-insertion position. -/
def jsMapFromEntries {α : Type} (l : List (String × α)) : List (String × α) :=
  l.foldl (fun acc e => setKV acc e.1 e.2) []

theorem jsMapFromEntries_concat {α : Type} (l : List (String × α)) (e : String × α) :
    jsMapFromEntries (l ++ [e]) = setKV (jsMapFromEntries l) e.1 e.2 := by
  simp [jsMapFromEntries, List.foldl_append]

theorem lookupKV_jsMapFromEntries {α : Type} (l : List (String × α)) (k : String) :
    lookupKV (jsMapFromEntries l) k = lookupKV l.reverse k := by
  induction l using List.reverseRecOn with
  | nil => rfl
  | append_singleton xs e ih =>
    rw [jsMapFromEntries_concat, List.reverse_append]
    by_cases hk : e.1 = k
    · rw [hk, lookupKV_setKV_self]
      simp [lookupKV, hk]
    · rw [lookupKV_setKV_ne _ _ _ _ (fun hh => hk hh.symm), ih]
      simp [lookupKV, hk]

theorem hasKV_iff_mem_keysKV {α : Type} (m : List (String × α)) (k : String) :
    hasKV m k = true ↔ k ∈ keysKV m := by
  induction m with
  | nil => simp [hasKV, lookupKV, keysKV]
  | cons hd tl ih =>
    obtain ⟨k₀, v₀⟩ := hd
    by_cases h : k₀ = k
    · simp [hasKV, lookupKV, keysKV, h]
    · have hne : k ≠ k₀ := fun hh => h hh.symm
      simp only [hasKV, lookupKV, if_neg h, keysKV, List.map_cons, List.mem_cons]
      rw [show (lookupKV tl k).isSome = hasKV tl k from rfl, ih]
      simp [keysKV, hne]

theorem keysKV_setKV {α : Type} (m : List (String × α)) (k : String) (v : α) :
    keysKV (setKV m k v) = if hasKV m k then keysKV m else keysKV m ++ [k] := by
  induction m with
  | nil => simp [setKV, keysKV, hasKV, lookupKV]
  | cons hd tl ih =>
    obtain ⟨k₀, v₀⟩ := hd
    by_cases h : k₀ = k
    · simp [setKV, keysKV, hasKV, lookupKV, h]
    · simp only [setKV, if_neg h, keysKV, List.map_cons]
      rw [show List.map Prod.fst (setKV tl k v) = keysKV (setKV tl k v) from rfl, ih]
      have hh : hasKV ((k₀, v₀) :: tl) k = hasKV tl k := by
        simp [hasKV, lookupKV, h]
      rw [hh]
      by_cases htl : hasKV tl k <;> simp [htl, keysKV]

theorem keysKV_setKV_nodup {α : Type} (m : List (String × α)) (k : String) (v : α)
    (h : (keysKV m).Nodup) : (keysKV (setKV m k v)).Nodup := by
  rw [keysKV_setKV]
  by_cases hk : hasKV m k
  · simpa [hk]
  · have hnotmem : k ∉ keysKV m := by
      intro hmem
      exact hk ((hasKV_iff_mem_keysKV m k).mpr hmem)
    simp [hk, List.nodup_append, hnotmem, h]

theorem mem_setKV {α : Type} (m : List (String × α)) (k : String) (v : α)
    (p : String × α) (h : p ∈ setKV m k v) : p ∈ m ∨ p = (k, v) := by
  induction m with
  | nil => simp [setKV] at h; simp [h]
  | cons hd tl ih =>
    obtain ⟨k₀, v₀⟩ := hd
    by_cases hk : k₀ = k
    · simp only [setKV, if_pos hk, List.mem_cons] at h
      rcases h with h | h
      · right; exact h
      · left; exact List.mem_cons_of_mem _ h
    · simp only [setKV, if_neg hk, List.mem_cons] at h
      rcases h with h | h
      · left; simp [h]
      · rcases ih h with h' | h'
        · left; exact List.mem_cons_of_mem _ h'
        · right; exact h'

theorem mem_foldl_setKV {α : Type} (l : List (String × α)) :
    ∀ (init : List (String × α)) (p : String × α),
      p ∈ l.foldl (fun acc e => setKV acc e.1 e.2) init → p ∈ init ∨ p ∈ l := by
  induction l with
  | nil =>
    intro init p hh
    left
    simpa using hh
  | cons e tl ih =>
    intro init p hh
    simp only [List.foldl_cons] at hh
    rcases ih (setKV init e.1 e.2) p hh with h' | h'
    · rcases mem_setKV init e.1 e.2 p h' with h'' | h''
      · left; exact h''
      · right; rw [h'']; exact List.mem_cons_self _ _
    · right; exact List.mem_cons_of_mem _ h'

theorem mem_jsMapFromEntries {α : Type} (l : List (String × α)) (p : String × α)
    (h : p ∈ jsMapFromEntries l) : p ∈ l := by
  rcases mem_foldl_setKV l [] p h with h' | h'
  · simp at h'
  · exact h'

theorem nodup_foldl_setKV {α : Type} (l : List (String × α)) :
    ∀ (init : List (String × α)), (keysKV init).Nodup →
      (keysKV (l.foldl (fun acc e => setKV acc e.1 e.2) init)).Nodup := by
  induction l with
  | nil =>
    intro init h
    simpa using h
  | cons e tl ih =>
    intro init h
    simp only [List.foldl_cons]
    exact ih (setKV init e.1 e.2) (keysKV_setKV_nodup init e.1 e.2 h)

theorem keysKV_jsMapFromEntries_nodup {α : Type} (l : List (String × α)) :
    (keysKV (jsMapFromEntries l)).Nodup :=
  nodup_foldl_setKV l [] (by simp [keysKV])

/-- The repo-URL/repo entry list that feeds the dedup `Map`
(`[...orgRepos, ...memberRepos].filter(repo => repo.html_url).map(repo => [repo.html_url, repo])`). -/
def combinedEntries (orgRepos memberRepos : List OrgRepo) : List (String × OrgRepo) :=
  ((orgRepos ++ memberRepos).filter (fun r => r.html_url ≠ "")).map
    (fun r => (r.html_url, r))

/-- `combinedRepos`: the values of the dedup `Map`, in insertion order. -/
def combinedRepos (orgRepos memberRepos : List OrgRepo) : List OrgRepo :=
  (jsMapFromEntries (combinedEntries orgRepos memberRepos)).map (fun p => p.2)

/-- Line 771: `for (const key of Object.keys(repoStats)) delete repoStats[key]`. -/
def deleteAllKeys (m : List (String × RepoStat)) : List (String × RepoStat) :=
  (keysKV m).foldl (fun acc k => eraseKV acc k) m

theorem deleteAllKeys_eq_nil (m : List (String × RepoStat)) : deleteAllKeys m = [] := by
  unfold deleteAllKeys
  induction m with
  | nil => rfl
  | cons hd tl ih =>
    obtain ⟨k, v⟩ := hd
    simp only [keysKV, List.map_cons, List.foldl_cons, eraseKV, if_pos rfl]
    exact ih

/-- Result of the authoritative recomputation step. -/
structure RecomputeResult where
  repoStats : List (String × RepoStat)
  stars : Int
  forks : Int
deriving Repr, DecidableEq

/-- Lines 763‑786: clear `repoStats`, reset the totals, and rebuild both
from the deduplicated union.  The previous `repoStats` map and the totals
accumulated so far are taken as arguments because the code mutates them
in place. -/
def recomputeTotals (orgRepos memberRepos : List OrgRepo)
    (prevStats : List (String × RepoStat)) (_prevStars _prevForks : Int) :
    RecomputeResult :=
  let combined := combinedRepos orgRepos memberRepos
  let cleared := deleteAllKeys prevStats
  combined.foldl
    (fun r repo =>
      let repoUrl := repo.html_url
      let repoStars := repo.stargazers_count.getD 0
      let repoForks := repo.forks_count.getD 0
      { repoStats := setKV r.repoStats repoUrl
          { stars := repoStars
            forks := repoForks
            activity := (lookupKV r.repoStats repoUrl).bind RepoStat.activity }
        stars := r.stars + repoStars
        forks := r.forks + repoForks })
    { repoStats := cleared, stars := 0, forks := 0 }

/-- The per-repo stat record rebuilt by the recomputation for a repo:
fresh stars/forks, no activity (the map was cleared just before). -/
def toStatOf (r : OrgRepo) : RepoStat :=
  { stars := r.stargazers_count.getD 0
    forks := r.forks_count.getD 0
    activity := none }

/-- The `repoStats` part of one recompute-loop iteration. -/
def statsStep (m : List (String × RepoStat)) (r : OrgRepo) : List (String × RepoStat) :=
  setKV m r.html_url
    { stars := r.stargazers_count.getD 0
      forks := r.forks_count.getD 0
      activity := (lookupKV m r.html_url).bind RepoStat.activity }

theorem recomputeFold_proj (rs : List OrgRepo) :
    ∀ (st : RecomputeResult),
      (rs.foldl
        (fun r repo =>
          { repoStats := setKV r.repoStats repo.html_url
              { stars := repo.stargazers_count.getD 0
                forks := repo.forks_count.getD 0
                activity := (lookupKV r.repoStats repo.html_url).bind RepoStat.activity }
            stars := r.stars + repo.stargazers_count.getD 0
            forks := r.forks + repo.forks_count.getD 0 : RecomputeResult })
        st)
      = { repoStats := rs.foldl statsStep st.repoStats
          stars := st.stars + (rs.map (fun r => r.stargazers_count.getD 0)).sum
          forks := st.forks + (rs.map (fun r => r.forks_count.getD 0)).sum } := by
  induction rs with
  | nil =>
    intro st
    simp
  | cons r rs' ih =>
    intro st
    simp only [List.foldl_cons, ih, List.map_cons, List.sum_cons, statsStep]
    congr 1 <;> ring

theorem lookup_statsFold (rs : List OrgRepo) :
    ∀ (m : List (String × RepoStat)) (url : String),
      (∀ r ∈ rs, hasKV m r.html_url = false) →
      (rs.map (fun r => r.html_url)).Nodup →
      lookupKV (rs.foldl statsStep m) url
        = ((rs.find? (fun r => r.html_url = url)).map toStatOf).orElse
            (fun _ => lookupKV m url) := by
  induction rs with
  | nil =>
    intro m url _ _
    simp [Option.orElse]
  | cons r rs' ih =>
    intro m url hdisj hnd
    simp only [List.map_cons, List.nodup_cons] at hnd
    have hmiss : lookupKV m r.html_url = none := by
      have := hdisj r (List.mem_cons_self _ _)
      simpa [hasKV, Option.isSome_iff_exists] using this
    have hstep : statsStep m r = setKV m r.html_url (toStatOf r) := by
      simp [statsStep, hmiss, toStatOf]
    have hdisj' : ∀ r' ∈ rs', hasKV (setKV m r.html_url (toStatOf r)) r'.html_url = false := by
      intro r' hr'
      have hne : r'.html_url ≠ r.html_url := by
        intro hh
        exact hnd.1 (hh ▸ List.mem_map_of_mem _ hr')
      rw [hasKV, lookupKV_setKV_ne _ _ _ _ hne]
      exact hdisj r' (List.mem_cons_of_mem _ hr')
    simp only [List.foldl_cons, hstep]
    rw [ih (setKV m r.html_url (toStatOf r)) url hdisj' hnd.2]
    by_cases hurl : r.html_url = url
    · have hnone : rs'.find? (fun r' => r'.html_url = url) = none := by
        apply List.find?_eq_none.mpr
        intro r' hr'
        have hne : r'.html_url ≠ r.html_url := by
          intro hh
          exact hnd.1 (hh ▸ List.mem_map_of_mem _ hr')
        simp [hurl ▸ hne]
      rw [hnone]
      simp only [List.find?_cons, hurl]
      simp [hurl ▸ lookupKV_setKV_self m r.html_url (toStatOf r), Option.orElse]
    · simp only [List.find?_cons, decide_eq_false hurl]
      rw [lookupKV_setKV_ne _ _ _ _ (fun hh => hurl hh.symm)]

theorem find?_values_eq_lookupKV (M : List (String × OrgRepo)) (url : String)
    (hinv : ∀ p ∈ M, p.1 = p.2.html_url) :
    (M.map (fun p => p.2)).find? (fun r => r.html_url = url) = lookupKV M url := by
  induction M with
  | nil => simp [lookupKV]
  | cons p M' ih =>
    obtain ⟨k, v⟩ := p
    have hk : k = v.html_url := hinv (k, v) (List.mem_cons_self _ _)
    subst hk
    simp only [List.map_cons, List.find?_cons, lookupKV]
    by_cases hurl : v.html_url = url
    · simp [hurl]
    · simp [hurl, ih (fun q hq => hinv q (List.mem_cons_of_mem _ hq))]

theorem combinedEntries_key_inv (orgRepos memberRepos : List OrgRepo) :
    ∀ p ∈ jsMapFromEntries (combinedEntries orgRepos memberRepos),
      p.1 = p.2.html_url := by
  intro p hp
  have hmem := mem_jsMapFromEntries _ p hp
  simp only [combinedEntries, List.mem_map] at hmem
  obtain ⟨r, _, hr⟩ := hmem
  rw [← hr]

/-- C3: after the authoritative recomputation the aggregate star/fork
totals are the sums over the URL-deduplicated union of org and member
repos; each distinct URL is counted exactly once, `repoStats` records the
last-merged value for every URL, and the totals and stats previously
accumulated have no influence on the result. -/
theorem dedup_recompute (orgRepos memberRepos : List OrgRepo)
    (prevStats prevStats' : List (String × RepoStat)) (pa pb pa' pb' : Int) :
    let r := recomputeTotals orgRepos memberRepos prevStats pa pb
    let combined := combinedRepos orgRepos memberRepos
    let entries := combinedEntries orgRepos memberRepos
    r = recomputeTotals orgRepos memberRepos prevStats' pa' pb' ∧
    (combined.map (fun rp => rp.html_url)).Nodup ∧
    r.stars = (combined.map (fun rp => rp.stargazers_count.getD 0)).sum ∧
    r.forks = (combined.map (fun rp => rp.forks_count.getD 0)).sum ∧
    (∀ url, lookupKV r.repoStats url
      = (lookupKV entries.reverse url).map toStatOf) := by
  intro r combined entries
  have hM : combined = (jsMapFromEntries entries).map (fun p => p.2) := rfl
  have hnodupkeys := keysKV_jsMapFromEntries_nodup entries
  have hinv := combinedEntries_key_inv orgRepos memberRepos
  have hurls : combined.map (fun rp => rp.html_url) = keysKV (jsMapFromEntries entries) := by
    rw [hM, keysKV, List.map_map]
    apply List.map_congr_left
    intro p hp
    exact (hinv p hp).symm
  have hnodup : (combined.map (fun rp => rp.html_url)).Nodup := by
    rw [hurls]
    exact hnodupkeys
  have hr : r = { repoStats := combined.foldl statsStep []
                  stars := (combined.map (fun rp => rp.stargazers_count.getD 0)).sum
                  forks := (combined.map (fun rp => rp.forks_count.getD 0)).sum } := by
    show recomputeTotals orgRepos memberRepos prevStats pa pb = _
    unfold recomputeTotals
    rw [deleteAllKeys_eq_nil]
    rw [recomputeFold_proj]
    simp only [zero_add]
  refine ⟨?_, hnodup, by rw [hr], by rw [hr], ?_⟩
  · show recomputeTotals orgRepos memberRepos prevStats pa pb
       = recomputeTotals orgRepos memberRepos prevStats' pa' pb'
    unfold recomputeTotals
    rw [deleteAllKeys_eq_nil, deleteAllKeys_eq_nil]
  · intro url
    rw [hr]
    show lookupKV (combined.foldl statsStep []) url = _
    rw [lookup_statsFold combined [] url (by intro _ _; simp [hasKV, lookupKV]) hnodup]
    rw [show (combined.find? (fun rp => rp.html_url = url))
        = lookupKV (jsMapFromEntries entries) url from by
      rw [hM]
      exact find?_values_eq_lookupKV _ url hinv]
    rw [lookupKV_jsMapFromEntries]
    cases lookupKV entries.reverse url <;> simp [Option.orElse, lookupKV]

/-! ## C6/C7: the reaction state machine

Embeds the POST handler of
`src/routes/api/blogs/[slug]/reaction/+server.ts`, lines 138‑187: the
cooldown rejection, toggle-off, switch and new-reaction transitions on
the parsed reaction state.  The transport wiring (body validation, DB
read/write, hashing of the client address) is outside this state-merge
algorithm; `actorKey` stands for the salted hash used as `ipHash`. -/

/-- A per-actor reaction record (`type ReactionRecord`). -/
structure ReactionRecord where
  emoji : String
  ts : Int
  deviceId : Option String
  ip : Option String
deriving Repr, DecidableEq

/-- The reaction state stored per blog post (`type ReactionState`). -/
structure ReactionState where
  counts : List (String × Int)
  ipMap : List (String × ReactionRecord)
deriving Repr, DecidableEq

/-- `const COOLDOWN_MS = 3000`. -/
def COOLDOWN_MS : Int := 3000

/-- `const MAX_EMOJI_LENGTH = 8`. -/
def MAX_EMOJI_LENGTH : Nat := 8

/-- What the POST handler produces: HTTP status, the `limited` flag, the
returned counts and user reaction, the state after the transition, and
whether an UPDATE of the stored row was issued. -/
structure ReactionOutcome where
  status : Nat
  limited : Bool
  counts : List (String × Int)
  userReaction : Option String
  state : ReactionState
  persisted : Bool
deriving Repr, DecidableEq

/-- Lines 168‑187, shared by the new-reaction and switch paths: decrement
the prior emoji (guarded by `existing?.emoji && existing.emoji !== emoji`,
flooring at 0 and defaulting a missing count to 1), increment the
requested emoji, and record the actor's attribution. -/
def applyReact (state : ReactionState) (actorKey emoji : String) (now : Int)
    (existingEmoji : Option String) : ReactionOutcome :=
  let counts1 :=
    match existingEmoji with
    | some prev =>
      if prev ≠ "" ∧ prev ≠ emoji then
        setKV state.counts prev (max 0 ((lookupKV state.counts prev).getD 1 - 1))
      else state.counts
    | none => state.counts
  let counts2 := setKV counts1 emoji ((lookupKV counts1 emoji).getD 0 + 1)
  let st : ReactionState :=
    { counts := counts2
      ipMap := setKV state.ipMap actorKey
        { emoji := emoji, ts := now, deviceId := none, ip := some actorKey } }
  { status := 200, limited := false, counts := counts2,
    userReaction := some emoji, state := st, persisted := true }

/-- Lines 138‑187: the full transition performed by the POST handler on
the parsed state. -/
def reactionStep (state : ReactionState) (actorKey emoji : String) (now : Int) :
    ReactionOutcome :=
  match lookupKV state.ipMap actorKey with
  | some existing =>
    if existing.emoji ≠ emoji ∧ now - existing.ts < COOLDOWN_MS then
      { status := 429, limited := true, counts := state.counts,
        userReaction := some existing.emoji, state := state, persisted := false }
    else if existing.emoji = emoji then
      let counts' := setKV state.counts emoji
        (max 0 ((lookupKV state.counts emoji).getD 1 - 1))
      let st : ReactionState :=
        { counts := counts', ipMap := eraseKV state.ipMap actorKey }
      { status := 200, limited := false, counts := counts',
        userReaction := none, state := st, persisted := true }
    else
      applyReact state actorKey emoji now (some existing.emoji)
  | none => applyReact state actorKey emoji now none

/-- The displayed count of an emoji, a missing entry counting as zero. -/
def countOf (s : ReactionState) (emoji : String) : Int :=
  (lookupKV s.counts emoji).getD 0

/-- Lines 140‑150: the cooldown rejection branch. -/
theorem reactionStep_limited (s : ReactionState) (a e : String) (now : Int)
    (r : ReactionRecord) (hl : lookupKV s.ipMap a = some r)
    (hne : r.emoji ≠ e) (hlt : now - r.ts < COOLDOWN_MS) :
    reactionStep s a e now =
      { status := 429, limited := true, counts := s.counts,
        userReaction := some r.emoji, state := s, persisted := false } := by
  simp only [reactionStep, hl]
  rw [if_pos ⟨hne, hlt⟩]

/-- Lines 152‑166: the toggle-off branch, taken whenever the actor's
prior emoji equals the requested one, at any time. -/
theorem reactionStep_toggle (s : ReactionState) (a e : String) (now : Int)
    (r : ReactionRecord) (hl : lookupKV s.ipMap a = some r) (he : r.emoji = e) :
    reactionStep s a e now =
      { status := 200, limited := false,
        counts := setKV s.counts e (max 0 ((lookupKV s.counts e).getD 1 - 1)),
        userReaction := none,
        state := { counts := setKV s.counts e (max 0 ((lookupKV s.counts e).getD 1 - 1)),
                   ipMap := eraseKV s.ipMap a },
        persisted := true } := by
  simp only [reactionStep, hl]
  rw [if_neg (by rintro ⟨hh, -⟩; exact hh he), if_pos he]

/-- The switch branch: a prior different emoji outside the cooldown
window falls through to the shared add/switch tail. -/
theorem reactionStep_switch (s : ReactionState) (a e : String) (now : Int)
    (r : ReactionRecord) (hl : lookupKV s.ipMap a = some r)
    (hne : r.emoji ≠ e) (hcool : COOLDOWN_MS ≤ now - r.ts) :
    reactionStep s a e now = applyReact s a e now (some r.emoji) := by
  simp only [reactionStep, hl]
  rw [if_neg (by rintro ⟨-, hlt⟩; omega), if_neg hne]

/-- The new-reaction branch: no prior entry for the actor. -/
theorem reactionStep_new (s : ReactionState) (a e : String) (now : Int)
    (hl : lookupKV s.ipMap a = none) :
    reactionStep s a e now = applyReact s a e now none := by
  simp only [reactionStep, hl]

theorem applyReact_counts_lookup (s : ReactionState) (a e : String) (now : Int)
    (prior : Option String) (hprior : ∀ p, prior = some p → p ≠ e) :
    lookupKV (applyReact s a e now prior).state.counts e
      = some ((lookupKV s.counts e).getD 0 + 1) := by
  cases prior with
  | none =>
    simp only [applyReact]
    rw [lookupKV_setKV_self]
  | some p =>
    have hne := hprior p rfl
    simp only [applyReact]
    rw [lookupKV_setKV_self]
    by_cases hpe : p ≠ "" ∧ p ≠ e
    · rw [if_pos hpe, lookupKV_setKV_ne _ _ _ _ (fun hh => hne hh.symm)]
    · rw [if_neg hpe]

theorem applyReact_ipMap (s : ReactionState) (a e : String) (now : Int)
    (prior : Option String) :
    (applyReact s a e now prior).state.ipMap
      = setKV s.ipMap a { emoji := e, ts := now, deviceId := none, ip := some a } := by
  cases prior <;> rfl

/-- C6: for a well-formed state (unique actor keys, non-negative count for
the emoji) and an actor who is not currently attributed to `X` and has no
cooldown in effect, reacting with `X`, then reacting with `X` again,
returns `counts[X]` to its pre-reaction value (absence counting as zero)
and removes the actor's attribution; a third identical reaction yields
exactly one above the original value and re-records the attribution. -/
theorem reaction_toggle_idempotent (s : ReactionState) (a X : String)
    (now1 now2 now3 : Int)
    (hnodup : (keysKV s.ipMap).Nodup)
    (hcounts : ∀ n, lookupKV s.counts X = some n → 0 ≤ n)
    (hprior : ∀ r, lookupKV s.ipMap a = some r → r.emoji ≠ X)
    (hcool : ∀ r, lookupKV s.ipMap a = some r → COOLDOWN_MS ≤ now1 - r.ts) :
    let o1 := reactionStep s a X now1
    let o2 := reactionStep o1.state a X now2
    let o3 := reactionStep o2.state a X now3
    countOf o2.state X = countOf s X ∧
    lookupKV o2.state.ipMap a = none ∧
    countOf o3.state X = countOf s X + 1 ∧
    (lookupKV o3.state.ipMap a).map ReactionRecord.emoji = some X := by
  intro o1 o2 o3
  have hc0 : 0 ≤ countOf s X := by
    unfold countOf
    cases hx : lookupKV s.counts X with
    | none => simp
    | some n => simpa using hcounts n hx
  have ho1 : o1 = applyReact s a X now1 ((lookupKV s.ipMap a).map ReactionRecord.emoji) := by
    show reactionStep s a X now1 = _
    cases hl : lookupKV s.ipMap a with
    | none => simpa using reactionStep_new s a X now1 hl
    | some r =>
      simpa using reactionStep_switch s a X now1 r hl (hprior r hl) (hcool r hl)
  have ho1c : lookupKV o1.state.counts X = some (countOf s X + 1) := by
    rw [ho1]
    exact applyReact_counts_lookup s a X now1 _
      (by
        intro p hp
        cases hl : lookupKV s.ipMap a with
        | none => rw [hl] at hp; simp at hp
        | some r =>
          rw [hl] at hp
          simp only [Option.map_some'] at hp
          obtain rfl : r.emoji = p := by injection hp
          exact hprior r hl)
  have ho1m : o1.state.ipMap
      = setKV s.ipMap a { emoji := X, ts := now1, deviceId := none, ip := some a } := by
    rw [ho1]
    exact applyReact_ipMap s a X now1 _
  have hl1 : lookupKV o1.state.ipMap a
      = some { emoji := X, ts := now1, deviceId := none, ip := some a } := by
    rw [ho1m]
    exact lookupKV_setKV_self _ _ _
  have hnodup1 : (keysKV o1.state.ipMap).Nodup := by
    rw [ho1m]
    exact keysKV_setKV_nodup _ _ _ hnodup
  have ho2 : o2 = reactionStep o1.state a X now2 := rfl
  rw [reactionStep_toggle o1.state a X now2 _ hl1 rfl] at ho2
  have ho2c : lookupKV o2.state.counts X = some (countOf s X) := by
    rw [ho2]
    show lookupKV (setKV o1.state.counts X _) X = _
    rw [lookupKV_setKV_self, ho1c]
    simp only [Option.getD_some]
    congr 1
    omega
  have hl2 : lookupKV o2.state.ipMap a = none := by
    rw [ho2]
    show lookupKV (eraseKV o1.state.ipMap a) a = none
    exact lookupKV_eraseKV_self _ _ hnodup1
  have ho3 : o3 = applyReact o2.state a X now3 none := by
    show reactionStep o2.state a X now3 = _
    exact reactionStep_new _ _ _ _ hl2
  have ho3c : lookupKV o3.state.counts X = some (countOf s X + 1) := by
    rw [ho3, applyReact_counts_lookup o2.state a X now3 none (by intro p hp; simp at hp)]
    rw [ho2c]
    simp
  refine ⟨?_, hl2, ?_, ?_⟩
  · unfold countOf
    rw [ho2c]
    rfl
  · unfold countOf
    rw [ho3c]
    rfl
  · rw [ho3, applyReact_ipMap, lookupKV_setKV_self]

    rfl

/-- Witness for C6 on a concrete state: actor `actor1` currently holds
`thumb`, `fire` has 2 reactions; toggling `fire` twice restores the count
2 and clears the attribution, a third `fire` makes it 3. -/
theorem reaction_toggle_idempotent_witness :
    let s : ReactionState :=
      { counts := [("fire", 2)], ipMap := [("actor1", ⟨"thumb", 0, none, none⟩)] }
    let o1 := reactionStep s "actor1" "fire" 5000
    let o2 := reactionStep o1.state "actor1" "fire" 5500
    let o3 := reactionStep o2.state "actor1" "fire" 6000
    countOf o2.state "fire" = 2 ∧
    lookupKV o2.state.ipMap "actor1" = none ∧
    countOf o3.state "fire" = 3 ∧
    (lookupKV o3.state.ipMap "actor1").map ReactionRecord.emoji = some "fire" := by
  intro s o1 o2 o3
  have h := reaction_toggle_idempotent s "actor1" "fire" 5000 5500 6000
    (by decide)
    (by
      intro n hn
      rw [show lookupKV s.counts "fire" = some 2 from by decide] at hn
      injection hn with hh
      omega)
    (by
      intro r hr
      rw [show lookupKV s.ipMap "actor1"
          = some (⟨"thumb", 0, none, none⟩ : ReactionRecord) from by decide] at hr
      injection hr with hh
      rw [← hh]
      decide)
    (by
      intro r hr
      rw [show lookupKV s.ipMap "actor1"
          = some (⟨"thumb", 0, none, none⟩ : ReactionRecord) from by decide] at hr
      injection hr with hh
      rw [← hh]
      decide)
  obtain ⟨h1, h2, h3, h4⟩ := h
  have hc : countOf s "fire" = 2 := by decide
  exact ⟨h1.trans hc, h2, h3.trans (by rw [hc]; decide), h4⟩

/-- C7: a switch attempt (prior emoji `X`, requested `Y ≠ X`) within the
3-second cooldown is rejected with status 429 and `limited`, returning
the unchanged counts and the current attribution, and mutating or
persisting nothing; toggle-offs and first-time reactions are never
rejected; after the cooldown the switch succeeds, decrementing `X`
(floored at 0) and incrementing `Y`. -/
theorem reaction_cooldown_switch (s : ReactionState) (a X Y : String)
    (r : ReactionRecord) (now : Int)
    (hl : lookupKV s.ipMap a = some r) (hre : r.emoji = X) (hxy : Y ≠ X)
    (hXne : X ≠ "") :
    (now - r.ts < COOLDOWN_MS →
      reactionStep s a Y now =
        { status := 429, limited := true, counts := s.counts,
          userReaction := some X, state := s, persisted := false }) ∧
    (COOLDOWN_MS ≤ now - r.ts →
      (reactionStep s a Y now).status = 200 ∧
      (reactionStep s a Y now).limited = false ∧
      countOf (reactionStep s a Y now).state X = max 0 (countOf s X - 1) ∧
      countOf (reactionStep s a Y now).state Y = countOf s Y + 1 ∧
      (lookupKV (reactionStep s a Y now).state.ipMap a).map ReactionRecord.emoji
        = some Y) ∧
    (∀ n' : Int, (reactionStep s a X n').status = 200 ∧
      (reactionStep s a X n').limited = false) ∧
    (∀ (s' : ReactionState) (a' e : String) (n' : Int),
      lookupKV s'.ipMap a' = none →
      (reactionStep s' a' e n').status = 200 ∧
      (reactionStep s' a' e n').limited = false) := by
  have hrx : r.emoji ≠ Y := fun hh => hxy (hh ▸ hre.symm ▸ rfl)
  refine ⟨?_, ?_, ?_, ?_⟩
  · intro hlt
    rw [reactionStep_limited s a Y now r hl (by rw [hre]; exact fun hh => hxy hh.symm) hlt]
    rw [hre]
  · intro hcool
    rw [reactionStep_switch s a Y now r hl
      (by rw [hre]; exact fun hh => hxy hh.symm) hcool]
    rw [hre]
    refine ⟨rfl, rfl, ?_, ?_, ?_⟩
    · show countOf (applyReact s a Y now (some X)).state X = _
      unfold countOf
      simp only [applyReact]
      rw [lookupKV_setKV_ne _ _ _ _ (fun hh => hxy (hh ▸ rfl) : X ≠ Y)]
      rw [if_pos ⟨hXne, fun hh => hxy hh.symm⟩]
      rw [lookupKV_setKV_self]
      cases hx : lookupKV s.counts X with
      | none => simp
      | some c => simp [hx]
    · show countOf (applyReact s a Y now (some X)).state Y = _
      unfold countOf
      simp only [applyReact]
      rw [lookupKV_setKV_self]
      rw [if_pos ⟨hXne, fun hh => hxy hh.symm⟩]
      rw [lookupKV_setKV_ne _ _ _ _ hxy]
      rfl
    · rw [applyReact_ipMap, lookupKV_setKV_self]
      rfl
  · intro n'
    rw [reactionStep_toggle s a X n' r hl hre]
    exact ⟨rfl, rfl⟩
  · intro s' a' e n' hl'
    rw [reactionStep_new s' a' e n' hl']
    exact ⟨rfl, rfl⟩

/-- Witness for C7 on a concrete state: actor `alice` switched to `x` at
t=1000; a switch to `y` at t=2000 is rejected unchanged, and the same
switch at t=5000 succeeds with `x` decremented to 1 and `y` at 6. -/
theorem reaction_cooldown_switch_witness :
    let s : ReactionState :=
      { counts := [("x", 2), ("y", 5)], ipMap := [("alice", ⟨"x", 1000, none, none⟩)] }
    reactionStep s "alice" "y" 2000 =
      { status := 429, limited := true, counts := [("x", 2), ("y", 5)],
        userReaction := some "x", state := s, persisted := false } ∧
    countOf (reactionStep s "alice" "y" 5000).state "x" = 1 ∧
    countOf (reactionStep s "alice" "y" 5000).state "y" = 6 := by
  intro s
  have h := reaction_cooldown_switch s "alice" "x" "y" ⟨"x", 1000, none, none⟩ 2000
    (by decide) rfl (by decide) (by decide)
  have h5 := reaction_cooldown_switch s "alice" "x" "y" ⟨"x", 1000, none, none⟩ 5000
    (by decide) rfl (by decide) (by decide)
  refine ⟨h.1 (by decide), ?_, ?_⟩
  · rw [(h5.2.1 (by decide)).2.2.1]
    decide
  · rw [(h5.2.1 (by decide)).2.2.2.1]
    decide

/-! ## C9: resilience of the persisted-reactions parsers

Embeds `parseReactionState`/`normalizeReactionCounts` from the reaction
endpoint (lines 19‑71) and `parseReactions` from `+page.server.ts`
(lines 204‑238).  `JSON.parse` is external; a raw persisted string is
represented by its parse outcome: `none` for a null/empty value
(`!raw`), `some none` for a non-empty string on which `JSON.parse`
throws, and `some (some v)` for a successful parse to `v`. -/

/-- A parsed JSON value.  Numbers are `Rat` (JSON numbers can be
fractional); object fields are kept in textual order, duplicate keys are
resolved last-wins on access, as `JSON.parse` does. -/
inductive JsonValue where
  | null : JsonValue
  | bool : Bool → JsonValue
  | num : Rat → JsonValue
  | str : String → JsonValue
  | arr : List JsonValue → JsonValue
  | obj : List (String × JsonValue) → JsonValue

/-- `value && typeof value === 'object'`: true exactly for objects and
arrays (JSON `null` has typeof `'object'` but is falsy). -/
def truthyObject : JsonValue → Bool
  | .arr _ => true
  | .obj _ => true
  | _ => false

/-- JS truthiness of a JSON value. -/
def truthyJson : JsonValue → Bool
  | .null => false
  | .bool b => b
  | .num q => decide (q ≠ 0)
  | .str s => decide (s ≠ "")
  | .arr _ => true
  | .obj _ => true

/-- `Object.entries`: object fields with duplicate keys collapsed
last-wins (as produced by `JSON.parse`); array indices as string keys. -/
def jsEntries : JsonValue → List (String × JsonValue)
  | .obj fields => jsMapFromEntries fields
  | .arr elems => elems.enum.map (fun p => (toString p.1, p.2))
  | _ => []

/-- `name in v` for the property names the code tests (non-numeric names
are never index properties of an array; inherited properties of the
primitive wrappers are not modelled, the code never reaches them). -/
def jsHasProp : JsonValue → String → Bool
  | .obj fields, name => hasKV fields name
  | .arr elems, name =>
    match name.toNat? with
    | some i => i < elems.length
    | none => false
  | _, _ => false

/-- `v[name]` as an `Option`, `none` for `undefined`. -/
def jsGetProp : JsonValue → String → Option JsonValue
  | .obj fields, name => lookupKV (jsMapFromEntries fields) name
  | .arr elems, name => name.toNat?.bind (fun i => elems.get? i)
  | _, _ => none

/-- Digit run to a number, `none` when empty or a non-digit occurs. -/
def digitsToNat (cs : List Char) : Option Nat :=
  if cs = [] then none
  else
    cs.foldl
      (fun acc c =>
        match acc with
        | none => none
        | some n => if c.isDigit then some (n * 10 + (c.toNat - 48)) else none)
      (some 0)

/-- JS `Number(s)` on a string, for the literal shapes that matter here:
blank strings give 0, optionally-signed decimal integer literals their
value, everything else NaN (`none`).  Fractional and exponent literals
are not modelled; nothing below depends on them. -/
def strToNumber (s : String) : Option Rat :=
  let t := s.trim
  if t = "" then some 0
  else
    match t.data with
    | '-' :: cs => (digitsToNat cs).map (fun n => -(n : Rat))
    | '+' :: cs => (digitsToNat cs).map (fun n => (n : Rat))
    | cs => (digitsToNat cs).map (fun n => (n : Rat))

/-- JS `Number(v)` coercion, `none` meaning NaN.  A non-empty array or an
object coerces through its string form; that path is modelled as NaN
(`Number([x])` may differ in JS; the code under proof never feeds it a
single-element array it cares about). -/
def toNumber : JsonValue → Option Rat
  | .null => some 0
  | .bool b => some (if b then 1 else 0)
  | .num q => some q
  | .str s => strToNumber s
  | .arr [] => some 0
  | .arr _ => none
  | .obj _ => none

/-- JS `String(v)` for primitive JSON values; the recursive array/object
coercions are collapsed to their typical constants, which no claim
depends on. -/
def jsToString : JsonValue → String
  | .str s => s
  | .null => "null"
  | .bool b => if b then "true" else "false"
  | .num q => if q.den = 1 then toString q.num else toString q
  | .arr _ => ""
  | .obj _ => "[object Object]"

/-- One entry of the `normalizeReactionCounts` loop: skip when the key is
empty, the value is NaN, or it is not strictly positive; otherwise
accumulate `Math.floor` of it. -/
def countStep (acc : List (String × Int)) (e : String × JsonValue) :
    List (String × Int) :=
  match toNumber e.2 with
  | none => acc
  | some num =>
    if e.1 = "" ∨ num ≤ 0 then acc
    else setKV acc e.1 ((lookupKV acc e.1).getD 0 + num.floor)

/-- One entry of the array branch: `acc[String(emoji)] += 1`. -/
def arrCountStep (acc : List (String × Int)) (e : JsonValue) :
    List (String × Int) :=
  let key := jsToString e
  setKV acc key ((lookupKV acc key).getD 0 + 1)

/-- Lines 19‑29 (endpoint) / 204‑214 (`+page.server.ts`): keep entries
whose key is non-empty and whose value coerces to a number strictly
greater than 0, accumulating `Math.floor` of the value. -/
def normalizeReactionCounts (obj : Option JsonValue) : List (String × Int) :=
  match obj with
  | none => []
  | some v =>
    if truthyObject v then (jsEntries v).foldl countStep []
    else []

/-- The empty reaction state used for every malformed input. -/
def emptyReactionState : ReactionState :=
  { counts := [], ipMap := [] }

/-- Lines 40‑55: coercion of one `ipMap` entry. -/
def parseIpMapValue (v : JsonValue) : Option ReactionRecord :=
  match v with
  | .str emj => some { emoji := emj, ts := 0, deviceId := none, ip := none }
  | other =>
    if truthyObject other ∧ jsHasProp other "emoji" then
      some
        { emoji := (jsGetProp other "emoji").elim "undefined" jsToString
          ts :=
            match jsGetProp other "ts" with
            | none => 0
            | some tv =>
              match toNumber tv with
              | none => 0
              | some q => q.floor
          deviceId :=
            match jsGetProp other "deviceId" with
            | none => none
            | some dv => if truthyJson dv then some (jsToString dv) else none
          ip :=
            match jsGetProp other "ip" with
            | none => none
            | some iv => if truthyJson iv then some (jsToString iv) else none }
    else none

/-- Lines 31‑71: `parseReactionState`. -/
def parseReactionState (raw : Option (Option JsonValue)) : ReactionState :=
  match raw with
  | none => emptyReactionState
  | some none => emptyReactionState
  | some (some v) =>
    if truthyObject v then
      { counts :=
          if jsHasProp v "counts" then normalizeReactionCounts (jsGetProp v "counts")
          else normalizeReactionCounts (some v)
        ipMap :=
          match jsGetProp v "ipMap" with
          | some m =>
            if truthyObject m then
              (jsEntries m).foldl
                (fun acc e =>
                  if e.1 = "" then acc
                  else
                    match parseIpMapValue e.2 with
                    | some r => setKV acc e.1 r
                    | none => acc)
                []
            else []
          | none => [] }
    else
      -- lines 59‑66: the `Array.isArray` branch; it is unreachable
      -- because arrays already satisfy the object check above, exactly
      -- as in the source.
      match v with
      | .arr elems => { counts := elems.foldl arrCountStep [], ipMap := [] }
      | _ => emptyReactionState

/-- Lines 204‑238 of `+page.server.ts`: `parseReactions` (the array test
comes first here, unlike in the endpoint). -/
def parseReactions (raw : Option (Option JsonValue)) : List (String × Int) :=
  match raw with
  | none => []
  | some none => []
  | some (some v) =>
    match v with
    | .arr elems => elems.foldl arrCountStep []
    | _ =>
      if truthyObject v then
        if jsHasProp v "counts" then normalizeReactionCounts (jsGetProp v "counts")
        else normalizeReactionCounts (some v)
      else []

theorem lookupKV_setKV_cases {α : Type} (m : List (String × α)) (k k' : String)
    (v : α) (n : α) (h : lookupKV (setKV m k v) k' = some n) :
    (k' = k ∧ n = v) ∨ lookupKV m k' = some n := by
  by_cases hk : k' = k
  · subst hk
    rw [lookupKV_setKV_self] at h
    exact Or.inl ⟨rfl, (Option.some_inj.mp h).symm⟩
  · rw [lookupKV_setKV_ne _ _ _ _ hk] at h
    exact Or.inr h

theorem countStep_nonneg (acc : List (String × Int)) (e : String × JsonValue)
    (hacc : ∀ k n, lookupKV acc k = some n → 0 ≤ n) :
    ∀ k n, lookupKV (countStep acc e) k = some n → 0 ≤ n := by
  intro k n h
  unfold countStep at h
  cases ht : toNumber e.2 with
  | none =>
    rw [ht] at h
    exact hacc k n h
  | some num =>
    rw [ht] at h
    simp only at h
    by_cases hc : e.1 = "" ∨ num ≤ 0
    · rw [if_pos hc] at h
      exact hacc k n h
    · rw [if_neg hc] at h
      push_neg at hc
      rcases lookupKV_setKV_cases acc e.1 k _ n h with ⟨-, hn⟩ | hm
      · have hfloor : (0 : Int) ≤ num.floor :=
          Rat.le_floor.mpr (by exact_mod_cast le_of_lt hc.2)
        have hbase : (0 : Int) ≤ (lookupKV acc e.1).getD 0 := by
          cases hb : lookupKV acc e.1 with
          | none => simp
          | some m => simpa using hacc e.1 m hb
        rw [hn]
        exact add_nonneg hbase hfloor
      · exact hacc k n hm

theorem arrCountStep_nonneg (acc : List (String × Int)) (e : JsonValue)
    (hacc : ∀ k n, lookupKV acc k = some n → 0 ≤ n) :
    ∀ k n, lookupKV (arrCountStep acc e) k = some n → 0 ≤ n := by
  intro k n h
  unfold arrCountStep at h
  rcases lookupKV_setKV_cases acc (jsToString e) k _ n h with ⟨-, hn⟩ | hm
  · have hbase : (0 : Int) ≤ (lookupKV acc (jsToString e)).getD 0 := by
      cases hb : lookupKV acc (jsToString e) with
      | none => simp
      | some m => simpa using hacc _ m hb
    rw [hn]
    omega
  · exact hacc k n hm

theorem foldl_lookup_nonneg {β : Type} (step : List (String × Int) → β → List (String × Int))
    (hstep : ∀ acc e, (∀ k n, lookupKV acc k = some n → 0 ≤ n) →
      ∀ k n, lookupKV (step acc e) k = some n → 0 ≤ n)
    (l : List β) :
    ∀ acc, (∀ k n, lookupKV acc k = some n → 0 ≤ n) →
      ∀ k n, lookupKV (l.foldl step acc) k = some n → 0 ≤ n := by
  induction l with
  | nil =>
    intro acc hacc
    exact hacc
  | cons e tl ih =>
    intro acc hacc
    simp only [List.foldl_cons]
    exact ih (step acc e) (hstep acc e hacc)

theorem normalizeReactionCounts_nonneg (obj : Option JsonValue) :
    ∀ k n, lookupKV (normalizeReactionCounts obj) k = some n → 0 ≤ n := by
  intro k n h
  cases obj with
  | none => simp [normalizeReactionCounts, lookupKV] at h
  | some v =>
    unfold normalizeReactionCounts at h
    dsimp only at h
    by_cases ht : truthyObject v = true
    · rw [if_pos ht] at h
      exact foldl_lookup_nonneg countStep countStep_nonneg (jsEntries v) []
        (by intro k' n' h'; simp [lookupKV] at h') k n h
    · rw [if_neg ht] at h
      simp [lookupKV] at h

/-- C9 counterexample: on the well-formed persisted blob whose count
value for `"x"` is 0.5, `parseReactions` returns a count of 0 for `"x"`,
so the counts it returns are not always strictly positive (the `num <= 0`
filter runs before `Math.floor`, which sends values in (0,1) to 0). -/
theorem reaction_parsing_counterexample :
    ¬ (∀ (raw : Option (Option JsonValue)) (k : String) (n : Int),
        lookupKV (parseReactions raw) k = some n → 0 < n) := by
  intro h
  have h0 : lookupKV
      (parseReactions (some (some (JsonValue.obj [("x", JsonValue.num (Rat.mk' 1 2))])))) "x"
      = some 0 := by decide
  exact absurd (h _ "x" 0 h0) (by decide)

/-- C9 (amended): malformed persisted reactions (null/empty, unparseable
JSON, or JSON that is neither an object nor an array) parse to the empty
state / empty counts map in both parsers, which are total functions; and
every count either parser returns is a non-negative integer (not
necessarily strictly positive: a stored fractional value in (0,1) floors
to 0). -/
theorem reaction_parsing_resilient :
    parseReactionState none = emptyReactionState ∧
    parseReactionState (some none) = emptyReactionState ∧
    parseReactions none = [] ∧
    parseReactions (some none) = [] ∧
    (∀ v : JsonValue, truthyObject v = false →
      parseReactionState (some (some v)) = emptyReactionState ∧
      parseReactions (some (some v)) = []) ∧
    (∀ raw k n, lookupKV (parseReactions raw) k = some n → 0 ≤ n) ∧
    (∀ raw k n, lookupKV (parseReactionState raw).counts k = some n → 0 ≤ n) := by
  refine ⟨rfl, rfl, rfl, rfl, ?_, ?_, ?_⟩
  · intro v hv
    cases v with
    | arr elems => simp [truthyObject] at hv
    | obj fields => simp [truthyObject] at hv
    | null => exact ⟨rfl, rfl⟩
    | bool b => exact ⟨rfl, rfl⟩
    | num q => exact ⟨rfl, rfl⟩
    | str t => exact ⟨rfl, rfl⟩
  · intro raw k n h
    match raw with
    | none => simp [parseReactions, lookupKV] at h
    | some none => simp [parseReactions, lookupKV] at h
    | some (some v) =>
      cases v with
      | arr elems =>
        exact foldl_lookup_nonneg arrCountStep arrCountStep_nonneg elems []
          (by intro k' n' h'; simp [lookupKV] at h') k n h
      | obj fields =>
        unfold parseReactions at h
        dsimp only at h
        by_cases hc : jsHasProp (JsonValue.obj fields) "counts" = true
        · rw [if_pos (show truthyObject (JsonValue.obj fields) = true from rfl),
            if_pos hc] at h
          exact normalizeReactionCounts_nonneg _ k n h
        · rw [if_pos (show truthyObject (JsonValue.obj fields) = true from rfl),
            if_neg hc] at h
          exact normalizeReactionCounts_nonneg _ k n h
      | null => simp [parseReactions, lookupKV] at h
      | bool b => simp [parseReactions, truthyObject, lookupKV] at h
      | num q => simp [parseReactions, truthyObject, lookupKV] at h
      | str t => simp [parseReactions, truthyObject, lookupKV] at h
  · intro raw k n h
    match raw with
    | none => simp [parseReactionState, emptyReactionState, lookupKV] at h
    | some none => simp [parseReactionState, emptyReactionState, lookupKV] at h
    | some (some v) =>
      cases v with
      | arr elems =>
        unfold parseReactionState at h
        dsimp only at h
        rw [if_pos (show truthyObject (JsonValue.arr elems) = true from rfl)] at h
        dsimp only at h
        by_cases hc : jsHasProp (JsonValue.arr elems) "counts" = true
        · rw [if_pos hc] at h
          exact normalizeReactionCounts_nonneg _ k n h
        · rw [if_neg hc] at h
          exact normalizeReactionCounts_nonneg _ k n h
      | obj fields =>
        unfold parseReactionState at h
        dsimp only at h
        rw [if_pos (show truthyObject (JsonValue.obj fields) = true from rfl)] at h
        dsimp only at h
        by_cases hc : jsHasProp (JsonValue.obj fields) "counts" = true
        · rw [if_pos hc] at h
          exact normalizeReactionCounts_nonneg _ k n h
        · rw [if_neg hc] at h
          exact normalizeReactionCounts_nonneg _ k n h
      | null => simp [parseReactionState, emptyReactionState, lookupKV] at h
      | bool b => simp [parseReactionState, truthyObject, emptyReactionState, lookupKV] at h
      | num q => simp [parseReactionState, truthyObject, emptyReactionState, lookupKV] at h
      | str t => simp [parseReactionState, truthyObject, emptyReactionState, lookupKV] at h

/-- Witness for C9: the num-valued blob parses to the empty state, and
the non-negativity bound applied at the counterexample state yields the
(tight) bound 0 ≤ 0 for the count parsed from a stored 0.5. -/
theorem reaction_parsing_resilient_witness :
    parseReactionState (some (some (JsonValue.num 5))) = emptyReactionState ∧
    (0 : Int) ≤ 0 := by
  have h := reaction_parsing_resilient
  refine ⟨(h.2.2.2.2.1 (JsonValue.num 5) (by decide)).1, ?_⟩
  exact h.2.2.2.2.2.1 (some (some (JsonValue.obj [("x", JsonValue.num (Rat.mk' 1 2))]))) "x" 0
    (by decide)

/-! ## C10: the GET reaction endpoint is read-only

Embeds lines 190‑221 of the reaction endpoint: the GET handler ensures
the table, selects the row for the slug, parses its reactions blob and
answers; it issues no UPDATE/INSERT/DELETE. -/

/-- One stored `blogs` row as the reaction endpoint reads it: the
`reactions` blob (represented by its parse outcome, as in C9) plus the
remaining columns, which the endpoint never touches. -/
structure StoredBlogRow where
  reactions : Option (Option JsonValue)
  otherColumns : List (String × String)

/-- The `blogs` table, keyed by slug. -/
def BlogsTable : Type := List (String × StoredBlogRow)

/-- The statements the reaction endpoint can issue against the table. -/
inductive DbOp where
  | createBlogsTable : DbOp
  | updateReactions (slug : String) (blob : JsonValue) : DbOp

/-- Effect of a statement on the rows: `CREATE TABLE IF NOT EXISTS` only
ensures the schema and never changes rows; `UPDATE blogs SET reactions =
? WHERE slug = ?` rewrites the blob of the matching row. -/
def applyDbOp (db : BlogsTable) : DbOp → BlogsTable
  | .createBlogsTable => db
  | .updateReactions slug blob =>
    db.map (fun p =>
      if p.1 = slug then (p.1, { p.2 with reactions := some (some blob) }) else p)

/-- The JSON body of a successful GET. -/
structure GetResponse where
  counts : List (String × Int)
  userReaction : Option String
deriving Repr, DecidableEq

/-- Lines 190‑221: the GET handler, given the table, the slug and the
hashed client address when one could be resolved.  Returns the issued
statements, the HTTP outcome (`error 404` for a missing row), and the
table after the statements ran. -/
def reactionGET (db : BlogsTable) (slug : String) (ipHash : Option String) :
    List DbOp × Except Nat GetResponse × BlogsTable :=
  let ops := [DbOp.createBlogsTable]
  let db1 := ops.foldl applyDbOp db
  match lookupKV db1 slug with
  | none => (ops, Except.error 404, db1)
  | some row =>
    let state := parseReactionState row.reactions
    let userReaction :=
      match ipHash with
      | some h => (lookupKV state.ipMap h).map ReactionRecord.emoji
      | none => none
    (ops, Except.ok { counts := state.counts, userReaction := userReaction }, db1)

/-- C10: the GET handler leaves every stored row unchanged, issues only
schema-ensuring statements, returns exactly the counts and user reaction
parsed from the stored blob (`userReaction` is `none` when the client
address cannot be resolved), and answers 404 for a missing row. -/
theorem reaction_get_readonly (db : BlogsTable) (slug : String)
    (ipHash : Option String) :
    let r := reactionGET db slug ipHash
    r.2.2 = db ∧
    (∀ op ∈ r.1, op = DbOp.createBlogsTable) ∧
    (∀ row, lookupKV db slug = some row →
      r.2.1 = Except.ok
        { counts := (parseReactionState row.reactions).counts
          userReaction := ipHash.bind (fun h =>
            (lookupKV (parseReactionState row.reactions).ipMap h).map
              ReactionRecord.emoji) }) ∧
    (ipHash = none → ∀ resp, r.2.1 = Except.ok resp → resp.userReaction = none) ∧
    (lookupKV db slug = none → r.2.1 = Except.error 404) := by
  intro r
  have hdb1 : ([DbOp.createBlogsTable].foldl applyDbOp db) = db := rfl
  refine ⟨?_, ?_, ?_, ?_, ?_⟩
  · show (reactionGET db slug ipHash).2.2 = db
    unfold reactionGET
    cases h : lookupKV db slug <;> simp [h, hdb1]
  · intro op hop
    have : (reactionGET db slug ipHash).1 = [DbOp.createBlogsTable] := by
      unfold reactionGET
      cases h : lookupKV db slug <;> simp [List.foldl, applyDbOp, h]
    rw [this] at hop
    simpa using hop
  · intro row hrow
    show (reactionGET db slug ipHash).2.1 = _
    unfold reactionGET
    simp only [hdb1, hrow]
    cases ipHash <;> rfl
  · intro hip resp hresp
    subst hip
    replace hresp : (reactionGET db slug none).2.1 = Except.ok resp := hresp
    unfold reactionGET at hresp
    dsimp only at hresp
    cases h : lookupKV db slug with
    | none =>
      rw [hdb1, h] at hresp
      simp at hresp
    | some row =>
      rw [hdb1, h] at hresp
      simp only [Except.ok.injEq] at hresp
      rw [← hresp]
  · intro hmiss
    show (reactionGET db slug ipHash).2.1 = _
    unfold reactionGET
    simp [hdb1, hmiss]

/-- Witness for C10 on a one-row table: the table is returned unchanged
and the response carries the parsed counts with a `none` user reaction
for an unresolvable client address. -/
theorem reaction_get_readonly_witness :
    let row : StoredBlogRow :=
      { reactions := some (some (JsonValue.obj [("fire", JsonValue.num (Rat.mk' 2 1))]))
        otherColumns := [] }
    let db : BlogsTable := [("post", row)]
    (reactionGET db "post" none).2.2 = db ∧
    (reactionGET db "post" none).2.1
      = Except.ok { counts := [("fire", 2)], userReaction := none } := by
  intro row db
  obtain ⟨h1, h2, h3, h4, h5⟩ := reaction_get_readonly db "post" none
  refine ⟨h1, ?_⟩
  rw [h3 row rfl]
  rfl

/-! ## C8: the blog merge engine

Embeds `+page.server.ts` lines 1106‑1143: persisted entries are loaded
into a slug-keyed map; each wiki-derived entry is inserted only under a
free slug (its own, or its own with a fresh random suffix) and never
overwrites an existing row; the output is the map's values sorted by
creation time descending. -/

/-- An in-memory blog entry (`type BlogEntry`); timestamps are
milliseconds (the code compares the ISO strings through
`new Date(...).getTime()`). -/
structure BlogEntry where
  slug : String
  title : String
  description : String
  content : String
  author : String
  authorUrl : Option String
  createdAt : Int
  modifiedAt : Int
  reactions : List (String × Int)
deriving Repr, DecidableEq

/-- The retry loop of lines 1109‑1111 once a collision happened: keep
drawing `shortId()` suffixes until the suffixed slug is free.  The stream
of draws is the argument `ids`; `none` when it is exhausted (the real
loop draws forever). -/
def resolveSlugFrom (blogMap : List (String × BlogEntry)) (base : String) :
    List String → Option (String × List String)
  | [] => none
  | id :: rest =>
    let cand := base ++ "-" ++ id
    if hasKV blogMap cand then resolveSlugFrom blogMap base rest
    else some (cand, rest)

/-- Lines 1108‑1111: `let slug = entry.slug; while (blogMap.has(slug))
slug = entry.slug + "-" + shortId()`. -/
def resolveSlug (blogMap : List (String × BlogEntry)) (base : String)
    (ids : List String) : Option (String × List String) :=
  if hasKV blogMap base then resolveSlugFrom blogMap base ids
  else some (base, ids)

/-- One iteration of the seeding loop (lines 1107‑1139): resolve a free
slug, insert `{ ...entry, slug }` under it (the guarded `set` always
fires, the slug being free).  An entry whose slug search exhausts the id
supply is skipped with the supply emptied. -/
def seedStep (acc : List (String × BlogEntry) × List String) (entry : BlogEntry) :
    List (String × BlogEntry) × List String :=
  match resolveSlug acc.1 entry.slug acc.2 with
  | some (slug, rest) => (setKV acc.1 slug { entry with slug := slug }, rest)
  | none => (acc.1, [])

/-- The seeding loop over all wiki-derived entries. -/
def seedWikiEntries (blogMap : List (String × BlogEntry)) (wiki : List BlogEntry)
    (ids : List String) : List (String × BlogEntry) × List String :=
  wiki.foldl seedStep (blogMap, ids)

/-- Insertion step of the descending-by-creation-time sort of line 1141
(`(a, b) => new Date(b.createdAt) - new Date(a.createdAt)`). -/
def insertByCreatedDesc (e : BlogEntry) : List BlogEntry → List BlogEntry
  | [] => [e]
  | x :: xs =>
    if x.createdAt < e.createdAt then e :: x :: xs
    else x :: insertByCreatedDesc e xs

/-- The sort of line 1141 (any sort agreeing with the comparator is a
faithful model; `Array.prototype.sort` fixes no algorithm). -/
def sortByCreatedDesc (l : List BlogEntry) : List BlogEntry :=
  l.foldr insertByCreatedDesc []

/-- Lines 1106‑1143 end to end: the merged, sorted `blogPosts`. -/
def mergedBlogPosts (blogMap : List (String × BlogEntry)) (wiki : List BlogEntry)
    (ids : List String) : List BlogEntry :=
  sortByCreatedDesc ((seedWikiEntries blogMap wiki ids).1.map (fun p => p.2))

theorem hasKV_setKV_of_hasKV {α : Type} (m : List (String × α)) (k s : String)
    (v : α) (h : hasKV m s = true) : hasKV (setKV m k v) s = true := by
  by_cases hk : s = k
  · subst hk
    simp [hasKV, lookupKV_setKV_self]
  · rw [hasKV, lookupKV_setKV_ne _ _ _ _ hk]
    exact h

theorem resolveSlugFrom_spec (m : List (String × BlogEntry)) (base : String) :
    ∀ (ids : List String) (slug : String) (rest : List String),
      resolveSlugFrom m base ids = some (slug, rest) →
      hasKV m slug = false ∧ (∃ id ∈ ids, slug = base ++ "-" ++ id) ∧
        (∀ x ∈ rest, x ∈ ids) := by
  intro ids
  induction ids with
  | nil =>
    intro slug rest h
    simp [resolveSlugFrom] at h
  | cons id tl ih =>
    intro slug rest h
    unfold resolveSlugFrom at h
    dsimp only at h
    by_cases hc : hasKV m (base ++ "-" ++ id) = true
    · rw [if_pos hc] at h
      obtain ⟨h1, ⟨id', hid', h2⟩, h3⟩ := ih slug rest h
      exact ⟨h1, ⟨id', List.mem_cons_of_mem _ hid', h2⟩,
        fun x hx => List.mem_cons_of_mem _ (h3 x hx)⟩
    · rw [if_neg hc] at h
      simp only [Option.some_inj, Prod.mk.injEq] at h
      obtain ⟨rfl, rfl⟩ := h
      exact ⟨by simpa using hc, ⟨id, List.mem_cons_self _ _, rfl⟩,
        fun x hx => List.mem_cons_of_mem _ hx⟩

theorem resolveSlug_spec (m : List (String × BlogEntry)) (base : String)
    (ids : List String) (slug : String) (rest : List String)
    (h : resolveSlug m base ids = some (slug, rest)) :
    hasKV m slug = false ∧ (slug = base ∨ ∃ id ∈ ids, slug = base ++ "-" ++ id) ∧
      (∀ x ∈ rest, x ∈ ids) := by
  unfold resolveSlug at h
  by_cases hb : hasKV m base = true
  · rw [if_pos hb] at h
    obtain ⟨h1, h2, h3⟩ := resolveSlugFrom_spec m base ids slug rest h
    exact ⟨h1, Or.inr h2, h3⟩
  · rw [if_neg hb] at h
    simp only [Option.some_inj, Prod.mk.injEq] at h
    obtain ⟨rfl, rfl⟩ := h
    exact ⟨by simpa using hb, Or.inl rfl, fun x hx => hx⟩

theorem seed_fold_preserves (wiki : List BlogEntry) :
    ∀ (m : List (String × BlogEntry)) (ids : List String) (s : String),
      hasKV m s = true →
      lookupKV (wiki.foldl seedStep (m, ids)).1 s = lookupKV m s := by
  induction wiki with
  | nil =>
    intro m ids s _
    rfl
  | cons entry tl ih =>
    intro m ids s hs
    simp only [List.foldl_cons]
    cases hres : resolveSlug m entry.slug ids with
    | none =>
      rw [show seedStep (m, ids) entry = (m, []) from by simp [seedStep, hres]]
      exact ih m [] s hs
    | some p =>
      obtain ⟨slug, rest⟩ := p
      obtain ⟨hfree, -, -⟩ := resolveSlug_spec m entry.slug ids slug rest hres
      rw [show seedStep (m, ids) entry
          = (setKV m slug { entry with slug := slug }, rest) from by
        simp [seedStep, hres]]
      have hne : s ≠ slug := by
        intro hh
        rw [hh] at hs
        rw [hs] at hfree
        cases hfree
      rw [ih _ rest s (hasKV_setKV_of_hasKV m slug s _ hs)]
      exact lookupKV_setKV_ne _ _ _ _ hne

theorem seed_fold_provenance (wiki : List BlogEntry) :
    ∀ (m : List (String × BlogEntry)) (ids : List String) (s : String)
      (e : BlogEntry),
      lookupKV (wiki.foldl seedStep (m, ids)).1 s = some e →
      lookupKV m s = some e ∨
        ∃ w ∈ wiki, e = { w with slug := s } ∧
          (s = w.slug ∨ ∃ id ∈ ids, s = w.slug ++ "-" ++ id) := by
  induction wiki with
  | nil =>
    intro m ids s e h
    exact Or.inl h
  | cons entry tl ih =>
    intro m ids s e h
    simp only [List.foldl_cons] at h
    cases hres : resolveSlug m entry.slug ids with
    | none =>
      rw [show seedStep (m, ids) entry = (m, []) from by simp [seedStep, hres]] at h
      rcases ih m [] s e h with h' | ⟨w, hw, he, hs⟩
      · exact Or.inl h'
      · refine Or.inr ⟨w, List.mem_cons_of_mem _ hw, he, ?_⟩
        rcases hs with hs | ⟨id, hid, -⟩
        · exact Or.inl hs
        · simp at hid
    | some p =>
      obtain ⟨slug, rest⟩ := p
      obtain ⟨hfree, horig, hsub⟩ := resolveSlug_spec m entry.slug ids slug rest hres
      rw [show seedStep (m, ids) entry
          = (setKV m slug { entry with slug := slug }, rest) from by
        simp [seedStep, hres]] at h
      rcases ih _ rest s e h with h' | ⟨w, hw, he, hs⟩
      · rcases lookupKV_setKV_cases m slug s _ e h' with ⟨rfl, he⟩ | hm
        · exact Or.inr ⟨entry, List.mem_cons_self _ _, he, horig⟩
        · exact Or.inl hm
      · refine Or.inr ⟨w, List.mem_cons_of_mem _ hw, he, ?_⟩
        rcases hs with hs | ⟨id, hid, hse⟩
        · exact Or.inl hs
        · exact Or.inr ⟨id, hsub id hid, hse⟩

theorem mem_insertByCreatedDesc (e : BlogEntry) (l : List BlogEntry)
    (y : BlogEntry) : y ∈ insertByCreatedDesc e l → y = e ∨ y ∈ l := by
  induction l with
  | nil =>
    intro h
    simp [insertByCreatedDesc] at h
    simp [h]
  | cons x xs ih =>
    intro h
    unfold insertByCreatedDesc at h
    by_cases hx : x.createdAt < e.createdAt
    · rw [if_pos hx] at h
      simp only [List.mem_cons] at h
      rcases h with h | h | h
      · exact Or.inl h
      · exact Or.inr (by simp [h])
      · exact Or.inr (List.mem_cons_of_mem _ h)
    · rw [if_neg hx] at h
      simp only [List.mem_cons] at h
      rcases h with h | h
      · exact Or.inr (by simp [h])
      · rcases ih h with h' | h'
        · exact Or.inl h'
        · exact Or.inr (List.mem_cons_of_mem _ h')

theorem pairwise_insertByCreatedDesc (e : BlogEntry) (l : List BlogEntry) :
    l.Pairwise (fun a b => b.createdAt ≤ a.createdAt) →
    (insertByCreatedDesc e l).Pairwise (fun a b => b.createdAt ≤ a.createdAt) := by
  induction l with
  | nil =>
    intro h
    simp [insertByCreatedDesc]
  | cons x xs ih =>
    intro h
    rw [List.pairwise_cons] at h
    unfold insertByCreatedDesc
    by_cases hx : x.createdAt < e.createdAt
    · rw [if_pos hx]
      refine List.Pairwise.cons ?_ (List.Pairwise.cons h.1 h.2)
      intro y hy
      rcases List.mem_cons.mp hy with rfl | hy'
      · exact le_of_lt hx
      · exact le_trans (h.1 y hy') (le_of_lt hx)
    · rw [if_neg hx]
      refine List.Pairwise.cons ?_ (ih h.2)
      intro y hy
      rcases mem_insertByCreatedDesc e xs y hy with rfl | hmem
      · exact le_of_not_lt hx
      · exact h.1 y hmem

theorem sortByCreatedDesc_sorted (l : List BlogEntry) :
    (sortByCreatedDesc l).Pairwise (fun a b => b.createdAt ≤ a.createdAt) := by
  induction l with
  | nil => simp [sortByCreatedDesc]
  | cons e tl ih => exact pairwise_insertByCreatedDesc e _ ih

/-- C8: seeding wiki-derived entries never alters an entry already in the
persisted map (its content and reaction counts included); every slug new
in the merged map carries a wiki entry under its original or a
suffix-resolved slug that was previously absent; and the merged output is
sorted by creation time descending. -/
theorem blog_merge_preserves (blogMap : List (String × BlogEntry))
    (wiki : List BlogEntry) (ids : List String) :
    let merged := (seedWikiEntries blogMap wiki ids).1
    (∀ s, hasKV blogMap s = true → lookupKV merged s = lookupKV blogMap s) ∧
    (∀ s e, lookupKV merged s = some e → hasKV blogMap s = false →
      ∃ w ∈ wiki, e = { w with slug := s } ∧
        (s = w.slug ∨ ∃ id ∈ ids, s = w.slug ++ "-" ++ id)) ∧
    (mergedBlogPosts blogMap wiki ids).Pairwise
      (fun a b => b.createdAt ≤ a.createdAt) := by
  intro merged
  refine ⟨?_, ?_, sortByCreatedDesc_sorted _⟩
  · intro s hs
    exact seed_fold_preserves wiki blogMap ids s hs
  · intro s e he habs
    rcases seed_fold_provenance wiki blogMap ids s e he with h' | h'
    · rw [hasKV, h'] at habs
      cases habs
    · exact h'

/-- Witness for C8: a persisted entry under `hello` survives seeding a
colliding wiki entry, which lands under `hello-abc` instead. -/
theorem blog_merge_preserves_witness :
    let old : BlogEntry :=
      { slug := "hello", title := "old", description := "", content := "keep"
        author := "a", authorUrl := none, createdAt := 10, modifiedAt := 10
        reactions := [("fire", 1)] }
    let wikiEntry : BlogEntry :=
      { slug := "hello", title := "new", description := "", content := "wiki"
        author := "b", authorUrl := none, createdAt := 20, modifiedAt := 20
        reactions := [] }
    let merged := (seedWikiEntries [("hello", old)] [wikiEntry] ["abc"]).1
    lookupKV merged "hello" = some old ∧
    (∃ w ∈ [wikiEntry],
      { w with slug := "hello-abc" }
        = { wikiEntry with slug := "hello-abc" } ∧
      ("hello-abc" = w.slug ∨ ∃ id ∈ ["abc"], "hello-abc" = w.slug ++ "-" ++ id)) := by
  intro old wikiEntry merged
  obtain ⟨h1, h2, h3⟩ := blog_merge_preserves [("hello", old)] [wikiEntry] ["abc"]
  constructor
  · exact (h1 "hello" (by decide)).trans (by decide)
  · have hm : lookupKV merged "hello-abc" = some { wikiEntry with slug := "hello-abc" } := by
      decide
    obtain ⟨w, hw, he, hs⟩ := h2 "hello-abc" _ hm (by decide)
    exact ⟨w, hw, by rw [← he], hs⟩

/-! ## C5: the daily-commit fallback fetcher

Embeds `fetchDailyCommitsForWindow` (`+page.server.ts` lines 41‑73): up
to `maxPages = 5` pages of the commit listing are requested in order;
paging stops at a non-ok response, an empty (or non-array) body, or a
missing `rel="next"` link; each commit is bucketed by whole days before
`now`, newest last, and commits outside the window are ignored. -/

/-- One commit item of a page: the two optional dates
`item.commit?.committer?.date` / `item.commit?.author?.date`, resolved to
millisecond values.  An unparseable date string changes no bucket in the
source (`buckets[NaN]` is a junk property, not an element) and is folded
into `none`. -/
structure CommitItem where
  committerDate : Option Int
  authorDate : Option Int
deriving Repr, DecidableEq

/-- `item.commit?.committer?.date ?? item.commit?.author?.date`. -/
def effDate (it : CommitItem) : Option Int :=
  it.committerDate.orElse (fun _ => it.authorDate)

/-- One page of `GET /repos/.../commits`: the HTTP ok flag, the JSON body
(`none` when it is not an array), and whether the `link` header contains
`rel="next"`. -/
structure CommitPage where
  ok : Bool
  items : Option (List CommitItem)
  hasNext : Bool

/-- `1000 * 60 * 60 * 24`. -/
def msPerDay : Int := 1000 * 60 * 60 * 24

/-- `buckets[i] += 1` (the index is always in range where this is used). -/
def incrAt : List Int → Nat → List Int
  | [], _ => []
  | x :: xs, 0 => (x + 1) :: xs
  | x :: xs, n + 1 => x :: incrAt xs n

/-- Lines 60‑68: bucket the commits of one page.  `diffDays` is
`Math.floor((now - ts) / msPerDay)`, floor division; a commit is dropped
when `diffDays < 0 || diffDays >= days`, else it increments bucket
`days - 1 - diffDays`. -/
def bucketItems (now : Int) (days : Nat) (buckets : List Int)
    (items : List CommitItem) : List Int :=
  items.foldl
    (fun bs it =>
      match effDate it with
      | none => bs
      | some ts =>
        let diffDays := Int.fdiv (now - ts) msPerDay
        if diffDays < 0 ∨ diffDays ≥ (days : Int) then bs
        else incrAt bs (days - 1 - diffDays.toNat))
    buckets

/-- Lines 50‑71: the page loop.  `pages i` is the response to the request
for page `i + 1`; the pair returned is (buckets, requests issued). -/
def fdcLoop (pages : Nat → CommitPage) (now : Int) (days : Nat) :
    Nat → Nat → List Int → List Int × Nat
  | 0, reqs, buckets => (buckets, reqs)
  | fuel + 1, reqs, buckets =>
    let p := pages reqs
    if p.ok = false then (buckets, reqs + 1)
    else
      match p.items with
      | none => (buckets, reqs + 1)
      | some [] => (buckets, reqs + 1)
      | some (it :: its) =>
        let bs := bucketItems now days buckets (it :: its)
        if p.hasNext = false then (bs, reqs + 1)
        else fdcLoop pages now days fuel (reqs + 1) bs

/-- Lines 41‑73: `fetchDailyCommitsForWindow` with its `maxPages = 5` cap
and dense zero-initialised bucket array of length `days`. -/
def fetchDailyCommitsForWindow (pages : Nat → CommitPage) (days : Nat)
    (now : Int) : List Int × Nat :=
  fdcLoop pages now days 5 0 (List.replicate days 0)

/-- A page lets the loop continue: ok, a non-empty array body, and a
`rel="next"` link. -/
def continueOk (p : CommitPage) : Bool :=
  p.ok && (match p.items with | some (_ :: _) => true | _ => false) && p.hasNext

/-- The commits the loop processes between requests `a` (inclusive) and
`b` (exclusive): the bodies of the ok pages among them. -/
def processedBetween (pages : Nat → CommitPage) (a b : Nat) : List CommitItem :=
  (List.range' a (b - a)).flatMap
    (fun i => if (pages i).ok then (pages i).items.getD [] else [])

/-- A commit belongs in bucket `b`: its effective date exists and lies
exactly `days - 1 - b` whole days before `now`. -/
def bucketPred (now : Int) (days : Nat) (b : Nat) (it : CommitItem) : Bool :=
  match effDate it with
  | none => false
  | some ts => decide (Int.fdiv (now - ts) msPerDay = (days : Int) - 1 - (b : Int))

theorem length_incrAt (l : List Int) : ∀ i, (incrAt l i).length = l.length := by
  induction l with
  | nil => intro i; rfl
  | cons x xs ih =>
    intro i
    cases i with
    | zero => rfl
    | succ n => simp [incrAt, ih]

theorem get?_incrAt_self (l : List Int) : ∀ i, i < l.length →
    (incrAt l i).get? i = (l.get? i).map (fun x => x + 1) := by
  induction l with
  | nil => intro i h; simp at h
  | cons x xs ih =>
    intro i h
    cases i with
    | zero => rfl
    | succ n =>
      simp only [incrAt, List.get?_cons_succ]
      exact ih n (by simpa using h)

theorem get?_incrAt_ne (l : List Int) : ∀ i j, j ≠ i →
    (incrAt l i).get? j = l.get? j := by
  induction l with
  | nil => intro i j _; rfl
  | cons x xs ih =>
    intro i j hne
    cases i with
    | zero =>
      cases j with
      | zero => exact absurd rfl hne
      | succ m => rfl
    | succ n =>
      cases j with
      | zero => rfl
      | succ m =>
        simp only [incrAt, List.get?_cons_succ]
        exact ih n m (fun hh => hne (by rw [hh]))

theorem length_bucketItems (now : Int) (days : Nat) (items : List CommitItem) :
    ∀ buckets, (bucketItems now days buckets items).length = buckets.length := by
  induction items with
  | nil => intro buckets; rfl
  | cons it its ih =>
    intro buckets
    unfold bucketItems
    simp only [List.foldl_cons]
    rw [show ∀ bs, List.foldl _ bs its = bucketItems now days bs its from fun bs => rfl]
    cases hd : effDate it with
    | none => rw [ih]
    | some ts =>
      dsimp only
      by_cases hw : Int.fdiv (now - ts) msPerDay < 0 ∨
          Int.fdiv (now - ts) msPerDay ≥ (days : Int)
      · rw [if_pos hw, ih]
      · rw [if_neg hw, ih, length_incrAt]

theorem bucketItems_nonneg (now : Int) (days : Nat) (items : List CommitItem) :
    ∀ buckets, (∀ x ∈ buckets, (0 : Int) ≤ x) →
      ∀ x ∈ bucketItems now days buckets items, (0 : Int) ≤ x := by
  have hincr : ∀ (l : List Int) i, (∀ x ∈ l, (0 : Int) ≤ x) →
      ∀ x ∈ incrAt l i, (0 : Int) ≤ x := by
    intro l
    induction l with
    | nil => intro i _ x hx; simp [incrAt] at hx
    | cons y ys ih =>
      intro i hl x hx
      cases i with
      | zero =>
        rcases List.mem_cons.mp hx with rfl | hx'
        · have := hl y (List.mem_cons_self _ _)
          omega
        · exact hl x (List.mem_cons_of_mem _ hx')
      | succ n =>
        rcases List.mem_cons.mp hx with rfl | hx'
        · exact hl x (List.mem_cons_self _ _)
        · exact ih n (fun z hz => hl z (List.mem_cons_of_mem _ hz)) x hx'
  induction items with
  | nil => intro buckets h; exact h
  | cons it its ih =>
    intro buckets h
    unfold bucketItems
    simp only [List.foldl_cons]
    rw [show ∀ bs, List.foldl _ bs its = bucketItems now days bs its from fun bs => rfl]
    cases hd : effDate it with
    | none => exact ih buckets h
    | some ts =>
      dsimp only
      by_cases hw : Int.fdiv (now - ts) msPerDay < 0 ∨
          Int.fdiv (now - ts) msPerDay ≥ (days : Int)
      · rw [if_pos hw]
        exact ih buckets h
      · rw [if_neg hw]
        exact ih _ (hincr buckets _ h)

theorem bucketItems_get? (now : Int) (days : Nat) (items : List CommitItem) :
    ∀ (buckets : List Int), buckets.length = days →
      ∀ b, b < days →
        (bucketItems now days buckets items).get? b
          = (buckets.get? b).map
              (fun x => x + (items.countP (bucketPred now days b) : Int)) := by
  induction items with
  | nil =>
    intro buckets hlen b hb
    simp only [bucketItems, List.foldl_nil, List.countP_nil, Nat.cast_zero]
    cases hx : buckets.get? b with
    | none => rfl
    | some v => simp
  | cons it its ih =>
    intro buckets hlen b hb
    unfold bucketItems
    simp only [List.foldl_cons]
    rw [show ∀ bs, List.foldl _ bs its = bucketItems now days bs its from fun bs => rfl]
    rw [List.countP_cons]
    cases hd : effDate it with
    | none =>
      rw [ih buckets hlen b hb]
      have hp : bucketPred now days b it = false := by
        simp [bucketPred, hd]
      rw [hp]
      simp
    | some ts =>
      dsimp only
      by_cases hw : Int.fdiv (now - ts) msPerDay < 0 ∨
          Int.fdiv (now - ts) msPerDay ≥ (days : Int)
      · rw [if_pos hw, ih buckets hlen b hb]
        have hp : bucketPred now days b it = false := by
          simp only [bucketPred, hd, decide_eq_false_iff_not]
          intro hh
          rcases hw with hw | hw <;> omega
        rw [hp]
        simp
      · rw [if_neg hw]
        push_neg at hw
        have h0 : (0 : Int) ≤ Int.fdiv (now - ts) msPerDay := hw.1
        have hlt : Int.fdiv (now - ts) msPerDay < (days : Int) := hw.2
        set d := Int.fdiv (now - ts) msPerDay with hdd
        have hdn : (d.toNat : Int) = d := Int.toNat_of_nonneg h0
        by_cases hbd : b = days - 1 - d.toNat
        · have hp : bucketPred now days b it = true := by
            simp only [bucketPred, hd, decide_eq_true_eq]
            omega
          rw [ih _ (by rw [length_incrAt]; exact hlen) b hb]
          rw [hbd, get?_incrAt_self buckets _ (by rw [hlen]; omega)]
          rw [hbd] at hp
          rw [hp]
          cases hx : buckets.get? (days - 1 - d.toNat) with
          | none =>
            simp
          | some v =>
            simp only [Option.map_some']
            congr 1
            push_cast
            ring
        · have hp : bucketPred now days b it = false := by
            simp only [bucketPred, hd, decide_eq_false_iff_not]
            intro hh
            omega
          rw [ih _ (by rw [length_incrAt]; exact hlen) b hb]
          rw [get?_incrAt_ne buckets _ b hbd, hp]
          simp

theorem bucketItems_append (now : Int) (days : Nat) (buckets : List Int)
    (l1 l2 : List CommitItem) :
    bucketItems now days buckets (l1 ++ l2)
      = bucketItems now days (bucketItems now days buckets l1) l2 := by
  unfold bucketItems
  exact List.foldl_append _ _ l1 l2

theorem processedBetween_self (pages : Nat → CommitPage) (a : Nat) :
    processedBetween pages a a = [] := by
  unfold processedBetween
  rw [Nat.sub_self]
  rfl

theorem processedBetween_succ_left (pages : Nat → CommitPage) (a b : Nat)
    (hab : a < b) :
    processedBetween pages a b
      = (if (pages a).ok then (pages a).items.getD [] else [])
          ++ processedBetween pages (a + 1) b := by
  unfold processedBetween
  have h1 : b - a = (b - (a + 1)) + 1 := by omega
  rw [h1, List.range'_succ]
  simp

theorem fdcLoop_stop_notok (pages : Nat → CommitPage) (now : Int) (days : Nat)
    (fuel reqs0 : Nat) (buckets : List Int) (hok : (pages reqs0).ok = false) :
    fdcLoop pages now days (fuel + 1) reqs0 buckets = (buckets, reqs0 + 1) := by
  unfold fdcLoop
  dsimp only
  rw [if_pos hok]

theorem fdcLoop_stop_noarray (pages : Nat → CommitPage) (now : Int) (days : Nat)
    (fuel reqs0 : Nat) (buckets : List Int) (hok : (pages reqs0).ok = true)
    (hitems : (pages reqs0).items = none) :
    fdcLoop pages now days (fuel + 1) reqs0 buckets = (buckets, reqs0 + 1) := by
  unfold fdcLoop
  dsimp only
  rw [if_neg (by simp [hok]), hitems]

theorem fdcLoop_stop_empty (pages : Nat → CommitPage) (now : Int) (days : Nat)
    (fuel reqs0 : Nat) (buckets : List Int) (hok : (pages reqs0).ok = true)
    (hitems : (pages reqs0).items = some []) :
    fdcLoop pages now days (fuel + 1) reqs0 buckets = (buckets, reqs0 + 1) := by
  unfold fdcLoop
  dsimp only
  rw [if_neg (by simp [hok]), hitems]

theorem fdcLoop_stop_nonext (pages : Nat → CommitPage) (now : Int) (days : Nat)
    (fuel reqs0 : Nat) (buckets : List Int) (it : CommitItem)
    (its : List CommitItem) (hok : (pages reqs0).ok = true)
    (hitems : (pages reqs0).items = some (it :: its))
    (hnext : (pages reqs0).hasNext = false) :
    fdcLoop pages now days (fuel + 1) reqs0 buckets
      = (bucketItems now days buckets (it :: its), reqs0 + 1) := by
  unfold fdcLoop
  dsimp only
  rw [if_neg (by simp [hok]), hitems]
  dsimp only
  rw [if_pos hnext]

theorem fdcLoop_go (pages : Nat → CommitPage) (now : Int) (days : Nat)
    (fuel reqs0 : Nat) (buckets : List Int) (it : CommitItem)
    (its : List CommitItem) (hok : (pages reqs0).ok = true)
    (hitems : (pages reqs0).items = some (it :: its))
    (hnext : (pages reqs0).hasNext = true) :
    fdcLoop pages now days (fuel + 1) reqs0 buckets
      = fdcLoop pages now days fuel (reqs0 + 1)
          (bucketItems now days buckets (it :: its)) := by
  conv_lhs => unfold fdcLoop
  dsimp only
  rw [if_neg (by simp [hok]), hitems]
  dsimp only
  rw [if_neg (by simp [hnext])]

theorem fdcLoop_chars (pages : Nat → CommitPage) (now : Int) (days : Nat) :
    ∀ (fuel reqs0 : Nat) (buckets : List Int),
      let r := fdcLoop pages now days fuel reqs0 buckets
      reqs0 ≤ r.2 ∧
      (0 < fuel → reqs0 < r.2) ∧
      r.2 ≤ reqs0 + fuel ∧
      r.1 = bucketItems now days buckets (processedBetween pages reqs0 r.2) ∧
      (∀ i, reqs0 ≤ i → i + 1 < r.2 → continueOk (pages i) = true) ∧
      (r.2 < reqs0 + fuel → continueOk (pages (r.2 - 1)) = false) := by
  intro fuel
  induction fuel with
  | zero =>
    intro reqs0 buckets r
    have hr1 : r.1 = buckets := rfl
    have hr2 : r.2 = reqs0 := rfl
    refine ⟨by omega, by omega, by omega, ?_, ?_, ?_⟩
    · rw [hr1, hr2, processedBetween_self]
      rfl
    · intro i h1 h2
      rw [hr2] at h2
      exact absurd h2 (by omega)
    · intro h
      rw [hr2] at h
      exact absurd h (by omega)
  | succ fuel ih =>
    intro reqs0 buckets r
    cases hok : (pages reqs0).ok with
    | false =>
      have hr : r = (buckets, reqs0 + 1) :=
        fdcLoop_stop_notok pages now days fuel reqs0 buckets hok
      have hr1 : r.1 = buckets := by rw [hr]
      have hr2 : r.2 = reqs0 + 1 := by rw [hr]
      refine ⟨by omega, fun _ => by omega, by omega, ?_, ?_, ?_⟩
      · rw [hr1, hr2, processedBetween_succ_left pages reqs0 (reqs0 + 1) (by omega),
          processedBetween_self, if_neg (by simp [hok])]
        rfl
      · intro i h1 h2
        rw [hr2] at h2
        exact absurd h2 (by omega)
      · intro _
        rw [hr2]
        simp [continueOk, hok]
    | true =>
      cases hitems : (pages reqs0).items with
      | none =>
        have hr : r = (buckets, reqs0 + 1) :=
          fdcLoop_stop_noarray pages now days fuel reqs0 buckets hok hitems
        have hr1 : r.1 = buckets := by rw [hr]
        have hr2 : r.2 = reqs0 + 1 := by rw [hr]
        refine ⟨by omega, fun _ => by omega, by omega, ?_, ?_, ?_⟩
        · rw [hr1, hr2, processedBetween_succ_left pages reqs0 (reqs0 + 1) (by omega),
            processedBetween_self, if_pos hok, hitems]
          rfl
        · intro i h1 h2
          rw [hr2] at h2
          exact absurd h2 (by omega)
        · intro _
          rw [hr2]
          simp [continueOk, hitems]
      | some items =>
        cases items with
        | nil =>
          have hr : r = (buckets, reqs0 + 1) :=
            fdcLoop_stop_empty pages now days fuel reqs0 buckets hok hitems
          have hr1 : r.1 = buckets := by rw [hr]
          have hr2 : r.2 = reqs0 + 1 := by rw [hr]
          refine ⟨by omega, fun _ => by omega, by omega, ?_, ?_, ?_⟩
          · rw [hr1, hr2, processedBetween_succ_left pages reqs0 (reqs0 + 1) (by omega),
              processedBetween_self, if_pos hok, hitems]
            rfl
          · intro i h1 h2
            rw [hr2] at h2
            exact absurd h2 (by omega)
          · intro _
            rw [hr2]
            simp [continueOk, hitems]
        | cons it its =>
          cases hnext : (pages reqs0).hasNext with
          | false =>
            have hr : r = (bucketItems now days buckets (it :: its), reqs0 + 1) :=
              fdcLoop_stop_nonext pages now days fuel reqs0 buckets it its hok hitems hnext
            have hr1 : r.1 = bucketItems now days buckets (it :: its) := by rw [hr]
            have hr2 : r.2 = reqs0 + 1 := by rw [hr]
            refine ⟨by omega, fun _ => by omega, by omega, ?_, ?_, ?_⟩
            · rw [hr1, hr2, processedBetween_succ_left pages reqs0 (reqs0 + 1) (by omega),
                processedBetween_self, if_pos hok, hitems]
              rw [show (some (it :: its)).getD ([] : List CommitItem) = it :: its from rfl,
                List.append_nil]
            · intro i h1 h2
              rw [hr2] at h2
              exact absurd h2 (by omega)
            · intro _
              rw [hr2]
              simp [continueOk, hnext]
          | true =>
            have hr : r = fdcLoop pages now days fuel (reqs0 + 1)
                (bucketItems now days buckets (it :: its)) :=
              fdcLoop_go pages now days fuel reqs0 buckets it its hok hitems hnext
            obtain ⟨ih0, ih1, ih2, ih3, ih4, ih5⟩ :=
              ih (reqs0 + 1) (bucketItems now days buckets (it :: its))
            have hr2 : r.2 = (fdcLoop pages now days fuel (reqs0 + 1)
                (bucketItems now days buckets (it :: its))).2 := by rw [hr]
            have hr1 : r.1 = (fdcLoop pages now days fuel (reqs0 + 1)
                (bucketItems now days buckets (it :: its))).1 := by rw [hr]
            refine ⟨by omega, fun _ => by omega, by omega, ?_, ?_, ?_⟩
            · rw [hr1, hr2, ih3,
                processedBetween_succ_left pages reqs0 _ (by omega),
                if_pos hok, hitems, bucketItems_append]
              rfl
            · intro i hi1 hi2
              rcases Nat.lt_or_ge reqs0 i with hgt | hle
              · exact ih4 i (by omega) (by rw [← hr2]; exact hi2)
              · have hieq : i = reqs0 := by omega
                subst hieq
                simp [continueOk, hok, hitems, hnext]
            · intro hlt
              rw [hr2] at hlt ⊢
              exact ih5 (by omega)

/-- C5: `fetchDailyCommitsForWindow` returns a dense array of exactly
`days` non-negative counts; bucket `b` counts exactly the processed
commits lying `days - 1 - b` whole days before `now` (newest last, with
out-of-window and future commits ignored); at most 5 pages are requested;
every page before the last allowed continuation, and an early stop
happens only at a page that is not ok, empty/non-array, or without a
`rel="next"` link. -/
theorem daily_commits_window (pages : Nat → CommitPage) (days : Nat) (now : Int) :
    let r := fetchDailyCommitsForWindow pages days now
    r.1.length = days ∧
    (∀ x ∈ r.1, (0 : Int) ≤ x) ∧
    (∀ b, b < days → r.1.get? b
      = some (((processedBetween pages 0 r.2).countP (bucketPred now days b) : Nat) : Int)) ∧
    1 ≤ r.2 ∧ r.2 ≤ 5 ∧
    (∀ i, i + 1 < r.2 → continueOk (pages i) = true) ∧
    (r.2 < 5 → continueOk (pages (r.2 - 1)) = false) := by
  intro r
  obtain ⟨h0, h1, h2, h3, h4, h5⟩ := fdcLoop_chars pages now days 5 0 (List.replicate days 0)
  have hreq : r = fdcLoop pages now days 5 0 (List.replicate days 0) := rfl
  rw [hreq]
  have hzero : ∀ x ∈ List.replicate days (0 : Int), (0 : Int) ≤ x := by
    intro x hx
    rw [List.eq_of_mem_replicate hx]
  refine ⟨?_, ?_, ?_, h1 (by omega), by omega, fun i hi => h4 i (by omega) hi, h5⟩
  · rw [h3, length_bucketItems, List.length_replicate]
  · intro x hx
    rw [h3] at hx
    exact bucketItems_nonneg now days _ _ hzero x hx
  · intro b hb
    rw [h3, bucketItems_get? now days _ _ (List.length_replicate days 0) b hb]
    rw [show (List.replicate days (0 : Int)).get? b = some 0 from by
      simp [List.get?_eq_getElem?, List.getElem?_replicate, hb]]
    simp

/-- Witness for C5: a single ok page without a next link, holding one
commit dated one whole day before `now`, yields one request and the
3-day bucket array `[0, 1, 0]`. -/
theorem daily_commits_window_witness :
    let pages : Nat → CommitPage := fun _ =>
      { ok := true
        items := some [⟨some (9 * msPerDay), none⟩]
        hasNext := false }
    let r := fetchDailyCommitsForWindow pages 3 (10 * msPerDay)
    r.1.length = 3 ∧ r.2 = 1 ∧
    r.1.get? 1 = some 1 ∧
    continueOk (pages 0) = false := by
  intro pages r
  obtain ⟨h0, h1, h2, h3, h4, h5, h6⟩ := daily_commits_window pages 3 (10 * msPerDay)
  refine ⟨h0, by decide, ?_, h6 (by decide)⟩
  exact (h2 1 (by decide)).trans (by decide)

/-! ## The repo-URL normalizer (C2) and its URL model

Embeds `normalizeRepoUrl` (lines 120‑139) and `parseRepo` (lines
107‑117).  `new URL(...)` is modelled for absolute http/https URLs
containing no percent-escapes, dot path segments, IPv6 hosts or
non-ASCII; all inputs the theorems quantify over, and all inputs the
code feeds it, lie in this fragment. -/

/-- `String.prototype.trim` whitespace (its common ASCII subset). -/
def jsWS (c : Char) : Bool :=
  c = ' ' ∨ c = '\t' ∨ c = '\n' ∨ c = '\r' ∨ c = '\x0b' ∨ c = '\x0c'

/-- `value.trim()`. -/
def trimChars (s : List Char) : List Char :=
  ((s.dropWhile jsWS).reverse.dropWhile jsWS).reverse

/-- `.replace(/^\/+|\/+$/g, "")`: strip runs of slashes at both ends. -/
def stripEdgeSlashes (s : List Char) : List Char :=
  ((s.dropWhile (fun c => c = '/')).reverse.dropWhile (fun c => c = '/')).reverse

/-- ASCII lowercasing, as the URL parser applies to scheme and host. -/
def lowerChar (c : Char) : Char :=
  if 'A' ≤ c ∧ c ≤ 'Z' then Char.ofNat (c.toNat + 32) else c

/-- The test `/^https?:\/\//i.test(s)`. -/
def matchesHttpScheme (s : List Char) : Bool :=
  match s.map lowerChar with
  | 'h' :: 't' :: 't' :: 'p' :: ':' :: '/' :: '/' :: _ => true
  | 'h' :: 't' :: 't' :: 'p' :: 's' :: ':' :: '/' :: '/' :: _ => true
  | _ => false

/-- Split the scheme off an absolute http(s) URL, case-insensitively. -/
def schemeSplit (s : List Char) : Option (String × List Char) :=
  match s.map lowerChar with
  | 'h' :: 't' :: 't' :: 'p' :: ':' :: '/' :: '/' :: _ => some ("http", s.drop 7)
  | 'h' :: 't' :: 't' :: 'p' :: 's' :: ':' :: '/' :: '/' :: _ => some ("https", s.drop 8)
  | _ => none

/-- Split at the first occurrence of `c`: `(before, some after)`, or
`(s, none)` when `c` does not occur. -/
def breakAtChar (c : Char) : List Char → List Char × Option (List Char)
  | [] => ([], none)
  | x :: xs =>
    if x = c then ([], some xs)
    else
      let r := breakAtChar c xs
      (x :: r.1, r.2)

/-- The segment after the last occurrence of `c` (all of `s` when `c`
does not occur), as the URL parser treats userinfo (`…@host`). -/
def afterLastChar (c : Char) (s : List Char) : List Char :=
  (s.reverse.takeWhile (fun x => x ≠ c)).reverse

/-- The default port the serializer omits. -/
def defaultPort (scheme : String) : List Char :=
  if scheme = "https" then ['4', '4', '3'] else ['8', '0']

/-- A parsed URL: lowercased host, canonical port (empty when absent or
default), path with its leading slash, query and fragment without their
markers. -/
structure UrlModel where
  scheme : String
  host : List Char
  port : List Char
  path : List Char
  search : List Char
  hash : List Char
deriving Repr, DecidableEq

/-- Host/port split of the authority (after userinfo removal): an
invalid (non-numeric) port or an empty host makes `new URL` throw. -/
def hostPortSplit (scheme : String) (hp : List Char) : Option (List Char × List Char) :=
  if hp.contains ':' then
    let port := (hp.reverse.takeWhile (fun x => x ≠ ':')).reverse
    let host := hp.take (hp.length - port.length - 1)
    if port.all Char.isDigit then
      some (host, if port = defaultPort scheme then [] else port)
    else none
  else some (hp, [])

/-- `new URL(s)` on the modelled fragment. -/
def parseHttpUrl (s : List Char) : Option UrlModel :=
  match schemeSplit s with
  | none => none
  | some (scheme, rest) =>
    let h := breakAtChar '#' rest
    let q := breakAtChar '?' h.1
    let a := breakAtChar '/' q.1
    let hostPort := afterLastChar '@' a.1
    match hostPortSplit scheme hostPort with
    | none => none
    | some (host, port) =>
      if host = [] then none
      else
        some { scheme := scheme
               host := host.map lowerChar
               port := port
               path := match a.2 with | none => [] | some p => '/' :: p
               search := q.2.getD []
               hash := h.2.getD [] }

/-- `url.toString()` (with `search`/`hash` already cleared where the
code clears them; the serializer renders them only when non-empty). -/
def urlToString (u : UrlModel) : List Char :=
  u.scheme.data ++ [':', '/', '/'] ++ u.host
    ++ (if u.port = [] then [] else ':' :: u.port)
    ++ (if u.path = [] then ['/'] else u.path)
    ++ (if u.search = [] then [] else '?' :: u.search)
    ++ (if u.hash = [] then [] else '#' :: u.hash)

/-- Lines 120‑139: `normalizeRepoUrl`. -/
def normalizeRepoUrl (value : Option String) : Option String :=
  match value with
  | none => none
  | some v =>
    let trimmed := stripEdgeSlashes (trimChars v.data)
    if trimmed = [] then none
    else if matchesHttpScheme trimmed then
      match parseHttpUrl trimmed with
      | none => none
      | some u =>
        if ("github.com".data).isSuffixOf u.host then
          some (String.mk (urlToString { u with search := [], hash := [] }))
        else none
    else if trimmed.contains '/' then
      some (String.mk ("https://github.com/".data ++ trimmed))
    else none

/-- Lines 107‑117: `parseRepo`, splitting the pathname into non-empty
segments (`pathname.split('/').filter(Boolean)`). -/
def parseRepo (url : Option String) : Option (String × String) :=
  match url with
  | none => none
  | some u =>
    match parseHttpUrl u.data with
    | none => none
    | some m =>
      if ("github.com".data).isSuffixOf m.host then
        match (m.path.splitOn '/').filter (fun seg => seg ≠ []) with
        | owner :: repo :: _ => some (String.mk owner, String.mk repo)
        | _ => none
      else none

/-! ## C1: the rate-limit cooldown short-circuit

Embeds lines 443‑476 (the start-of-pass gate) and lines 1176‑1210 (the
end-of-pass cache/trip logic) of the load pass.  Every upstream `fetch`
of the pass sits after line 476, so a pass whose gate hits performs zero
upstream calls; the remainder of the pass is abstracted as `rest`. -/

/-- An org member (`\x7b login, avatar_url, html_url \x7d`). -/
structure OrgMember where
  login : String
  avatar_url : String
  html_url : String
deriving Repr, DecidableEq

/-- A member enriched with profile stats (`type MemberDetail`). -/
structure MemberDetail where
  login : String
  avatar_url : String
  html_url : String
  public_repos : Option Int
  public_gists : Option Int
  followers : Option Int
  star_count : Option Int
  name : Option String
deriving Repr, DecidableEq

/-- The aggregate header of the payload. -/
structure GithubStats where
  stars : Int
  forks : Int
  contributors : Int
deriving Repr, DecidableEq

/-- The full response envelope (`type CachedPayload`). -/
structure CachedPayload where
  githubStats : GithubStats
  repoStats : List (String × RepoStat)
  orgRepos : List OrgRepo
  memberRepos : List OrgRepo
  orgMembers : List OrgMember
  memberDetails : List MemberDetail
  blogPosts : List BlogEntry
deriving Repr, DecidableEq

/-- `CACHE_TTL = 1000 * 60 * 15`. -/
def CACHE_TTL : Int := 1000 * 60 * 15

/-- `RATE_LIMIT_COOLDOWN = 1000 * 60 * 15`. -/
def RATE_LIMIT_COOLDOWN : Int := 1000 * 60 * 15

/-- One fallback repo card (lines 457‑468); `nowIso` models
`new Date().toISOString()`. -/
def fallbackOrgRepo (nowIso : Int) (repoUrl : String) : OrgRepo :=
  { name := ((parseRepo (some repoUrl)).map (fun p => p.2)).getD repoUrl
    description := some "Fallback repository (cached list)"
    html_url := repoUrl
    stargazers_count := some 0
    forks_count := some 0
    topics := ["fallback"]
    language := some "General"
    updated_at := some nowIso
    created_at := some nowIso
    homepage := none }

/-- Lines 454‑474: the static fallback-list payload. -/
def fallbackPayload (fallbackRepoUrls : List String) (nowIso : Int) : CachedPayload :=
  { githubStats := { stars := 0, forks := 0, contributors := 0 }
    repoStats := []
    orgRepos := fallbackRepoUrls.map (fallbackOrgRepo nowIso)
    memberRepos := []
    orgMembers := []
    memberDetails := []
    blogPosts := [] }

/-- The state a pass reads before its gate: the clock, the in-process
cooldown and memory cache, the persisted row, and the fallback list. -/
structure GateEnv where
  now : Int
  rateLimitUntil : Int
  memPayload : Option CachedPayload
  memTimestamp : Int
  persistedPayload : Option CachedPayload
  persistedTimestamp : Int
  persistedRateUntil : Int
  fallbackRepoUrls : List String
  nowIso : Int

/-- Lines 443‑476: the cooldown gate.  `some p` means the pass returns
`p` right here; `none` means it falls through to the upstream section. -/
def loadGate (e : GateEnv) : Option CachedPayload :=
  if e.now < e.rateLimitUntil ∨ e.now < e.persistedRateUntil then
    match e.memPayload with
    | some p =>
      if e.now - e.memTimestamp < CACHE_TTL then some p
      else
        match e.persistedPayload with
        | some q =>
          if e.now - e.persistedTimestamp < CACHE_TTL then some q
          else if e.fallbackRepoUrls ≠ [] then
            some (fallbackPayload e.fallbackRepoUrls e.nowIso)
          else none
        | none =>
          if e.fallbackRepoUrls ≠ [] then
            some (fallbackPayload e.fallbackRepoUrls e.nowIso)
          else none
    | none =>
      match e.persistedPayload with
      | some q =>
        if e.now - e.persistedTimestamp < CACHE_TTL then some q
        else if e.fallbackRepoUrls ≠ [] then
          some (fallbackPayload e.fallbackRepoUrls e.nowIso)
        else none
      | none =>
        if e.fallbackRepoUrls ≠ [] then
          some (fallbackPayload e.fallbackRepoUrls e.nowIso)
        else none
  else none

/-- A pass, seen from the gate: a gate hit returns its payload with zero
upstream requests, otherwise the rest of the pass (lines 478‑1213) runs
and reports its own request count. -/
def loadPass (e : GateEnv) (rest : Unit → CachedPayload × Nat) :
    CachedPayload × Nat :=
  match loadGate e with
  | some p => (p, 0)
  | none => rest ()

/-- `memoryCache.payload && nowFinal - memoryCache.timestamp < CACHE_TTL`. -/
def freshOpt (p? : Option CachedPayload) (ts nowF : Int) : Option CachedPayload :=
  match p? with
  | some p => if nowF - ts < CACHE_TTL then some p else none
  | none => none

/-- What the end of a pass leaves behind: the returned payload, the
in-process cooldown and memory cache, and the row written to the
persisted `github_cache` (payload, timestamp, rate_limit_until). -/
structure FinishState where
  returned : CachedPayload
  rateLimitUntil : Int
  memPayload : Option CachedPayload
  memTimestamp : Int
  dbWrite : Option (CachedPayload × Int × Int)
deriving DecidableEq

/-- Lines 1176‑1210: prefer a still-fresh cache over the freshly built
payload when the pass was rate limited, else trip the cooldown (only if
rate limited), refresh the memory cache (with the pass-start time `now`,
line 1192) and write the persisted row (`rateLimitUntil ||
persistedRateUntil`, line 1205). -/
def loadFinish (rateLimited : Bool) (payload : CachedPayload) (now nowFinal : Int)
    (memPayload : Option CachedPayload) (memTimestamp : Int)
    (persistedPayload : Option CachedPayload) (persistedTimestamp : Int)
    (rateLimitUntil persistedRateUntil : Int) (canUseD1 : Bool) : FinishState :=
  match rateLimited, freshOpt memPayload memTimestamp nowFinal with
  | true, some p =>
    { returned := p, rateLimitUntil := rateLimitUntil,
      memPayload := memPayload, memTimestamp := memTimestamp, dbWrite := none }
  | _, _ =>
    match rateLimited, freshOpt persistedPayload persistedTimestamp nowFinal with
    | true, some p =>
      { returned := p, rateLimitUntil := rateLimitUntil,
        memPayload := memPayload, memTimestamp := memTimestamp, dbWrite := none }
    | _, _ =>
      let newRLU := if rateLimited then nowFinal + RATE_LIMIT_COOLDOWN else rateLimitUntil
      { returned := payload
        rateLimitUntil := newRLU
        memPayload := some payload
        memTimestamp := now
        dbWrite :=
          if canUseD1 then
            some (payload, nowFinal, if newRLU ≠ 0 then newRLU else persistedRateUntil)
          else none }

/-- C1: while a cooldown is in effect a pass performs zero upstream
calls and serves the memory cache if fresh, else the persisted cache if
fresh, else the fallback-list payload (the bundled list being
non-empty); and a rate-limited pass that cannot fall back onto a fresh
cache trips the cooldown to `nowFinal + RATE_LIMIT_COOLDOWN`, stores it
in the persisted row as well, so that any pass starting before that
timestamp sees an active gate. -/
theorem rate_limit_cooldown :
    (∀ (e : GateEnv), e.now < e.rateLimitUntil ∨ e.now < e.persistedRateUntil →
      (∀ p, e.memPayload = some p → e.now - e.memTimestamp < CACHE_TTL →
        ∀ rest, loadPass e rest = (p, 0)) ∧
      ((∀ p, e.memPayload = some p → CACHE_TTL ≤ e.now - e.memTimestamp) →
        ∀ q, e.persistedPayload = some q → e.now - e.persistedTimestamp < CACHE_TTL →
        ∀ rest, loadPass e rest = (q, 0)) ∧
      ((∀ p, e.memPayload = some p → CACHE_TTL ≤ e.now - e.memTimestamp) →
        (∀ q, e.persistedPayload = some q → CACHE_TTL ≤ e.now - e.persistedTimestamp) →
        e.fallbackRepoUrls ≠ [] →
        ∀ rest, loadPass e rest
          = (fallbackPayload e.fallbackRepoUrls e.nowIso, 0))) ∧
    (∀ (payload : CachedPayload) (now nowFinal : Int)
       (memPayload : Option CachedPayload) (memTimestamp : Int)
       (persistedPayload : Option CachedPayload)
       (persistedTimestamp rateLimitUntil persistedRateUntil : Int),
      (∀ p, memPayload = some p → CACHE_TTL ≤ nowFinal - memTimestamp) →
      (∀ q, persistedPayload = some q → CACHE_TTL ≤ nowFinal - persistedTimestamp) →
      0 < nowFinal →
      let F := loadFinish true payload now nowFinal memPayload memTimestamp
          persistedPayload persistedTimestamp rateLimitUntil persistedRateUntil true
      F.rateLimitUntil = nowFinal + RATE_LIMIT_COOLDOWN ∧
      F.memPayload = some payload ∧ F.memTimestamp = now ∧
      F.dbWrite = some (payload, nowFinal, nowFinal + RATE_LIMIT_COOLDOWN) ∧
      (∀ now2, now2 < nowFinal + RATE_LIMIT_COOLDOWN →
        ∀ (fallbackUrls : List String) (nowIso2 : Int),
          let e2 : GateEnv :=
            { now := now2, rateLimitUntil := F.rateLimitUntil
              memPayload := F.memPayload, memTimestamp := F.memTimestamp
              persistedPayload := some payload, persistedTimestamp := nowFinal
              persistedRateUntil := nowFinal + RATE_LIMIT_COOLDOWN
              fallbackRepoUrls := fallbackUrls, nowIso := nowIso2 }
          e2.now < e2.rateLimitUntil ∨ e2.now < e2.persistedRateUntil)) := by
  constructor
  · intro e hcool
    refine ⟨?_, ?_, ?_⟩
    · intro p hp hfresh rest
      unfold loadPass loadGate
      rw [if_pos hcool, hp]
      dsimp only
      rw [if_pos hfresh]
    · intro hmemStale q hq hfresh rest
      unfold loadPass loadGate
      rw [if_pos hcool]
      cases hm : e.memPayload with
      | none =>
        dsimp only
        rw [hq]
        dsimp only
        rw [if_pos hfresh]
      | some p =>
        have := hmemStale p hm
        dsimp only
        rw [if_neg (by omega), hq]
        dsimp only
        rw [if_pos hfresh]
    · intro hmemStale hperStale hfb rest
      unfold loadPass loadGate
      rw [if_pos hcool]
      cases hm : e.memPayload with
      | none =>
        dsimp only
        cases hq : e.persistedPayload with
        | none =>
          dsimp only
          rw [if_pos hfb]
        | some q =>
          have := hperStale q hq
          dsimp only
          rw [if_neg (by omega), if_pos hfb]
      | some p =>
        have := hmemStale p hm
        dsimp only
        rw [if_neg (by omega)]
        cases hq : e.persistedPayload with
        | none =>
          dsimp only
          rw [if_pos hfb]
        | some q =>
          have := hperStale q hq
          dsimp only
          rw [if_neg (by omega), if_pos hfb]
  · intro payload now nowFinal memPayload memTimestamp persistedPayload
      persistedTimestamp rateLimitUntil persistedRateUntil hmemStale hperStale hpos F
    have hmf : freshOpt memPayload memTimestamp nowFinal = none := by
      cases hm : memPayload with
      | none => rfl
      | some p =>
        have := hmemStale p hm
        unfold freshOpt
        dsimp only
        rw [if_neg (by omega)]
    have hpf : freshOpt persistedPayload persistedTimestamp nowFinal = none := by
      cases hq : persistedPayload with
      | none => rfl
      | some q =>
        have := hperStale q hq
        unfold freshOpt
        dsimp only
        rw [if_neg (by omega)]
    have hF : F = { returned := payload
                    rateLimitUntil := nowFinal + RATE_LIMIT_COOLDOWN
                    memPayload := some payload
                    memTimestamp := now
                    dbWrite := some (payload, nowFinal, nowFinal + RATE_LIMIT_COOLDOWN) } := by
      show loadFinish true payload now nowFinal memPayload memTimestamp
          persistedPayload persistedTimestamp rateLimitUntil persistedRateUntil true = _
      unfold loadFinish
      rw [hmf, hpf]
      dsimp only
      have hne : nowFinal + RATE_LIMIT_COOLDOWN ≠ 0 := by
        unfold RATE_LIMIT_COOLDOWN
        omega
      simp [hne]
    refine ⟨by rw [hF], by rw [hF], by rw [hF], by rw [hF], ?_⟩
    intro now2 h2 fallbackUrls nowIso2 e2
    left
    show now2 < F.rateLimitUntil
    rw [hF]
    exact h2

/-- Witness for C1: after a rate-limited pass at `nowFinal = 10^6` with
no fresh cache, the cooldown is `10^6 + 900000`, and a pass at
`now2 = 10^6 + 1` serves the memory cache with zero upstream calls. -/
theorem rate_limit_cooldown_witness :
    let payload : CachedPayload :=
      { githubStats := { stars := 7, forks := 1, contributors := 2 }
        repoStats := [], orgRepos := [], memberRepos := []
        orgMembers := [], memberDetails := [], blogPosts := [] }
    let F := loadFinish true payload 999000 1000000 none 0 none 0 0 0 true
    F.rateLimitUntil = 1900000 ∧
    F.dbWrite = some (payload, 1000000, 1900000) ∧
    (let e2 : GateEnv :=
      { now := 1000001, rateLimitUntil := F.rateLimitUntil
        memPayload := F.memPayload, memTimestamp := F.memTimestamp
        persistedPayload := some payload, persistedTimestamp := 1000000
        persistedRateUntil := 1900000
        fallbackRepoUrls := ["https://github.com/contributor-club/contrib.club"]
        nowIso := 0 }
    ∀ rest, loadPass e2 rest = (payload, 0)) := by
  intro payload F
  obtain ⟨hA, hB⟩ := rate_limit_cooldown
  obtain ⟨h1, h2, h3, h4, h5⟩ :=
    hB payload 999000 1000000 none 0 none 0 0 0
      (by intro p hp; cases hp) (by intro q hq; cases hq) (by omega)
  refine ⟨h1.trans (by decide), h4.trans (by decide), ?_⟩
  intro e2 rest
  have hcool := h5 1000001 (by decide)
    ["https://github.com/contributor-club/contrib.club"] 0
  obtain ⟨hm1, hm2, hm3⟩ := hA e2 hcool
  have := hm1 payload (by rw [show e2.memPayload = F.memPayload from rfl, h2])
    (by
      show (1000001 : Int) - e2.memTimestamp < CACHE_TTL
      rw [show e2.memTimestamp = F.memTimestamp from rfl, h3]
      decide)
    rest
  exact this

/-- Characters the universally-quantified owner/repo names range over:
ASCII letters, digits, hyphen, underscore (the character set of real
GitHub account names, minus the dot for repo names). -/
def plainChar (c : Char) : Bool :=
  (48 ≤ c.toNat ∧ c.toNat ≤ 57) ∨ (65 ≤ c.toNat ∧ c.toNat ≤ 90) ∨
    (97 ≤ c.toNat ∧ c.toNat ≤ 122) ∨ c = '-' ∨ c = '_'

theorem plainChar_toNat (c : Char) (h : plainChar c = true) :
    (48 ≤ c.toNat ∧ c.toNat ≤ 57) ∨ (65 ≤ c.toNat ∧ c.toNat ≤ 90) ∨
    (97 ≤ c.toNat ∧ c.toNat ≤ 122) ∨ c.toNat = 45 ∨ c.toNat = 95 := by
  simp only [plainChar, decide_eq_true_eq] at h
  rcases h with h | h | h | h | h
  · exact Or.inl h
  · exact Or.inr (Or.inl h)
  · exact Or.inr (Or.inr (Or.inl h))
  · subst h; exact Or.inr (Or.inr (Or.inr (Or.inl rfl)))
  · subst h; exact Or.inr (Or.inr (Or.inr (Or.inr rfl)))

theorem plainChar_ne (c : Char) (h : plainChar c = true) (d : Char)
    (hd : d.toNat = 32 ∨ d.toNat = 9 ∨ d.toNat = 10 ∨ d.toNat = 13 ∨
      d.toNat = 11 ∨ d.toNat = 12 ∨ d.toNat = 47 ∨ d.toNat = 58 ∨
      d.toNat = 63 ∨ d.toNat = 35 ∨ d.toNat = 64 ∨ d.toNat = 46) : c ≠ d := by
  intro hh
  subst hh
  rcases plainChar_toNat c h with h1 | h1 | h1 | h1 | h1 <;> omega

theorem plainChar_not_ws (c : Char) (h : plainChar c = true) : jsWS c = false := by
  simp only [jsWS, decide_eq_false_iff_not]
  push_neg
  refine ⟨?_, ?_, ?_, ?_, ?_, ?_⟩ <;>
    exact plainChar_ne c h _ (by decide)

theorem plainChar_ne_slash (c : Char) (h : plainChar c = true) : c ≠ '/' :=
  plainChar_ne c h '/' (by decide)

theorem char_upper_range_iff (c : Char) :
    ('A' ≤ c ∧ c ≤ 'Z') ↔ (65 ≤ c.toNat ∧ c.toNat ≤ 90) := by
  rw [Char.le_def, Char.le_def, UInt32.le_def, UInt32.le_def]
  simp [BitVec.le_def]
  rfl

theorem toNat_ofNat_valid (n : Nat) (h : n < 55296) : (Char.ofNat n).toNat = n := by
  have hv : n.isValidChar := Or.inl h
  simp [Char.ofNat, hv, Char.ofNatAux, Char.toNat, UInt32.toNat]

theorem lowerChar_plain_toNat (c : Char) (h : plainChar c = true) :
    (48 ≤ (lowerChar c).toNat ∧ (lowerChar c).toNat ≤ 57) ∨
    (97 ≤ (lowerChar c).toNat ∧ (lowerChar c).toNat ≤ 122) ∨
    (lowerChar c).toNat = 45 ∨ (lowerChar c).toNat = 95 := by
  unfold lowerChar
  by_cases hu : 'A' ≤ c ∧ c ≤ 'Z'
  · rw [if_pos hu]
    have hr := (char_upper_range_iff c).mp hu
    rw [toNat_ofNat_valid (c.toNat + 32) (by omega)]
    omega
  · rw [if_neg hu]
    have hr := fun hh => hu ((char_upper_range_iff c).mpr hh)
    have hno : c.toNat < 65 ∨ 90 < c.toNat := by
      by_contra hcon
      push_neg at hcon
      exact hr ⟨by omega, by omega⟩
    rcases plainChar_toNat c h with h1 | h1 | h1 | h1 | h1 <;> omega

theorem lowerChar_plain_ne_colon (c : Char) (h : plainChar c = true) :
    lowerChar c ≠ ':' := by
  intro hh
  have := lowerChar_plain_toNat c h
  rw [hh] at this
  rcases this with h1 | h1 | h1 | h1 <;> simp at h1

theorem lowerChar_slash : lowerChar '/' = '/' := by decide

theorem dropWhile_no (p : Char → Bool) (l : List Char)
    (h : ∀ c ∈ l, p c = false) : l.dropWhile p = l := by
  induction l with
  | nil => rfl
  | cons c cs ih =>
    rw [List.dropWhile_cons, h c (List.mem_cons_self _ _)]
    simp

theorem dropWhile_head_no (p : Char → Bool) (c : Char) (cs : List Char)
    (h : p c = false) : (c :: cs).dropWhile p = c :: cs := by
  rw [List.dropWhile_cons, h]
  simp

theorem trimChars_eq_self (l : List Char) (h : ∀ c ∈ l, jsWS c = false) :
    trimChars l = l := by
  unfold trimChars
  rw [dropWhile_no jsWS l h,
    dropWhile_no jsWS l.reverse (fun c hc => h c (List.mem_reverse.mp hc)),
    List.reverse_reverse]

theorem stripEdgeSlashes_eq_self (l : List Char)
    (h1 : ∀ c, l.head? = some c → (c = '/' : Bool) = false)
    (h2 : ∀ c, l.getLast? = some c → (c = '/' : Bool) = false) :
    stripEdgeSlashes l = l := by
  unfold stripEdgeSlashes
  cases hl : l with
  | nil => rfl
  | cons c cs =>
    rw [dropWhile_head_no _ c cs (h1 c (by rw [hl]; rfl))]
    rw [← hl]
    cases hr : l.reverse with
    | nil => simp_all
    | cons d ds =>
      have hd : l.getLast? = some d := by
        rw [← List.head?_reverse, hr]
        rfl
      rw [dropWhile_head_no _ d ds (h2 d hd), ← hr, List.reverse_reverse]

theorem breakAtChar_not_mem (c : Char) (l : List Char) (h : c ∉ l) :
    breakAtChar c l = (l, none) := by
  induction l with
  | nil => rfl
  | cons x xs ih =>
    have hx : ¬ x = c := fun hh => h (hh ▸ List.mem_cons_self _ _)
    unfold breakAtChar
    rw [if_neg hx, ih (fun hm => h (List.mem_cons_of_mem _ hm))]

theorem breakAtChar_append_not_mem (c : Char) (xs ys : List Char) (h : c ∉ xs) :
    breakAtChar c (xs ++ ys)
      = (xs ++ (breakAtChar c ys).1, (breakAtChar c ys).2) := by
  induction xs with
  | nil => simp
  | cons x xt ih =>
    have hx : ¬ x = c := fun hh => h (hh ▸ List.mem_cons_self _ _)
    have hstep : breakAtChar c (x :: (xt ++ ys))
        = (x :: (breakAtChar c (xt ++ ys)).1, (breakAtChar c (xt ++ ys)).2) := by
      conv_lhs => unfold breakAtChar
      rw [if_neg hx]
    simp only [List.cons_append]
    rw [hstep, ih (fun hm => h (List.mem_cons_of_mem _ hm))]

theorem breakAtChar_cons_self (c : Char) (l : List Char) :
    breakAtChar c (c :: l) = ([], some l) := by
  unfold breakAtChar
  rw [if_pos rfl]

theorem afterLastChar_not_mem (c : Char) (l : List Char) (h : c ∉ l) :
    afterLastChar c l = l := by
  unfold afterLastChar
  rw [List.takeWhile_eq_self_iff.mpr, List.reverse_reverse]
  intro x hx
  simp only [ne_eq, decide_eq_true_eq]
  intro hh
  exact h (hh ▸ List.mem_reverse.mp hx)

theorem matchesHttpScheme_false_of_no_colon (s : List Char)
    (h : (':' : Char) ∉ s.map lowerChar) : matchesHttpScheme s = false := by
  unfold matchesHttpScheme
  split
  · rename_i heq
    exact absurd (by rw [heq]; simp : (':' : Char) ∈ s.map lowerChar) h
  · rename_i heq
    exact absurd (by rw [heq]; simp : (':' : Char) ∈ s.map lowerChar) h
  · rfl

theorem no_colon_map_lower (l : List Char)
    (h : ∀ c ∈ l, plainChar c = true ∨ c = '/') :
    (':' : Char) ∉ l.map lowerChar := by
  intro hm
  obtain ⟨c, hc, hlc⟩ := List.mem_map.mp hm
  rcases h c hc with hp | rfl
  · exact lowerChar_plain_ne_colon c hp hlc
  · rw [lowerChar_slash] at hlc
    cases hlc

theorem getLast?_plain_not_slash (repo : List Char) (hr : repo ≠ [])
    (hrp : ∀ c ∈ repo, plainChar c = true) :
    ∀ c, repo.getLast? = some c → (c = '/' : Bool) = false := by
  intro c hc
  rw [List.getLast?_eq_getLast repo hr] at hc
  obtain rfl : repo.getLast hr = c := by injection hc
  have hmem := List.getLast_mem hr
  simp only [decide_eq_false_iff_not]
  exact plainChar_ne_slash _ (hrp _ hmem)

theorem normalizeRepoUrl_bare_aux (owner repo : List Char)
    (ho : owner ≠ []) (hr : repo ≠ [])
    (hop : ∀ c ∈ owner, plainChar c = true)
    (hrp : ∀ c ∈ repo, plainChar c = true) :
    normalizeRepoUrl (some (String.mk (owner ++ '/' :: repo)))
      = some (String.mk ("https://github.com/".data ++ (owner ++ '/' :: repo))) := by
  obtain ⟨o0, otl, rfl⟩ := List.exists_cons_of_ne_nil ho
  set t : List Char := (o0 :: otl) ++ '/' :: repo with ht
  have hall : ∀ c ∈ t, jsWS c = false := by
    intro c hc
    rcases List.mem_append.mp hc with hc | hc
    · exact plainChar_not_ws c (hop c hc)
    · rcases List.mem_cons.mp hc with rfl | hc
      · decide
      · exact plainChar_not_ws c (hrp c hc)
  have htrim : trimChars t = t := trimChars_eq_self t hall
  have hstrip : stripEdgeSlashes t = t := by
    apply stripEdgeSlashes_eq_self
    · intro c hc
      obtain rfl : o0 = c := by
        rw [ht] at hc
        injection hc
      simp only [decide_eq_false_iff_not]
      exact plainChar_ne_slash _ (hop _ (List.mem_cons_self _ _))
    · intro c hc
      rw [ht, List.getLast?_append] at hc
      rw [show ('/' :: repo).getLast? = repo.getLast? from by
        cases hrepo : repo with
        | nil => exact absurd hrepo hr
        | cons a as => rw [← hrepo, hrepo, List.getLast?_cons_cons, ← hrepo]] at hc
      have hsome : repo.getLast? ≠ none := by
        rw [List.getLast?_eq_getLast repo hr]
        simp
      cases hg : repo.getLast? with
      | none => exact absurd hg hsome
      | some d =>
        rw [hg] at hc
        simp only [Option.or_some, Option.some_inj] at hc
        rw [← hc]
        exact getLast?_plain_not_slash repo hr hrp d hg
  have hscheme : matchesHttpScheme t = false := by
    apply matchesHttpScheme_false_of_no_colon
    apply no_colon_map_lower
    intro c hc
    rcases List.mem_append.mp hc with hc | hc
    · exact Or.inl (hop c hc)
    · rcases List.mem_cons.mp hc with rfl | hc
      · exact Or.inr rfl
      · exact Or.inl (hrp c hc)
  have hcontains : t.contains '/' = true :=
    List.elem_iff.mpr (List.mem_append.mpr (Or.inr (List.mem_cons_self _ _)))
  unfold normalizeRepoUrl
  dsimp only
  rw [htrim, hstrip]
  rw [if_neg (by rw [ht]; simp : ¬ t = [])]
  rw [hscheme]
  rw [if_neg (show ¬ false = true from by simp)]
  rw [if_pos hcontains]


/-! ### C2 proofs: the scheme split, edge-stripping, and break lemmas that
drive `normalizeRepoUrl` on the canonical input families. -/

theorem schemeSplit_https (rest : List Char) :
    schemeSplit ("https://".data ++ rest) = some ("https", rest) := by
  unfold schemeSplit
  rw [List.map_append, show ("https://".data).map lowerChar = "https://".data from by decide]
  rw [show ("https://".data : List Char) = ['h','t','t','p','s',':','/','/'] from rfl]
  simp only [List.cons_append, List.nil_append]
  rfl

theorem matchesHttpScheme_https (rest : List Char) :
    matchesHttpScheme ("https://".data ++ rest) = true := by
  unfold matchesHttpScheme
  rw [List.map_append, show ("https://".data).map lowerChar = "https://".data from by decide]
  rw [show ("https://".data : List Char) = ['h','t','t','p','s',':','/','/'] from rfl]
  simp only [List.cons_append, List.nil_append]

theorem dropWhile_slash_reverse (l : List Char)
    (h2 : ∀ c, l.getLast? = some c → (c = '/' : Bool) = false) :
    l.reverse.dropWhile (fun c => c = '/') = l.reverse := by
  cases hr : l.reverse with
  | nil => rfl
  | cons d ds =>
    have hd : l.getLast? = some d := by
      rw [← List.head?_reverse, hr]
      rfl
    rw [dropWhile_head_no _ d ds (h2 d hd)]

theorem stripEdgeSlashes_append_slash (l : List Char)
    (h1 : ∀ c, l.head? = some c → (c = '/' : Bool) = false)
    (h2 : ∀ c, l.getLast? = some c → (c = '/' : Bool) = false) :
    stripEdgeSlashes (l ++ ['/']) = l := by
  unfold stripEdgeSlashes
  cases hl : l with
  | nil => rfl
  | cons c cs =>
    rw [List.cons_append,
      dropWhile_head_no _ c (cs ++ ['/']) (h1 c (by rw [hl]; rfl)),
      ← List.cons_append, ← hl, List.reverse_append]
    simp only [List.reverse_cons, List.reverse_nil, List.nil_append, List.singleton_append]
    rw [show List.dropWhile (fun c => (c = '/' : Bool)) ('/' :: l.reverse)
        = List.dropWhile (fun c => (c = '/' : Bool)) l.reverse from by
      rw [List.dropWhile_cons]
      simp]
    rw [dropWhile_slash_reverse l h2, List.reverse_reverse]

theorem getLast?_or_not_slash (xs ys : List Char) (hne : ys ≠ [])
    (hys : ∀ c, ys.getLast? = some c → (c = '/' : Bool) = false) :
    ∀ c, (xs ++ ys).getLast? = some c → (c = '/' : Bool) = false := by
  intro c hc
  rw [List.getLast?_append] at hc
  cases hg : ys.getLast? with
  | none =>
    rw [List.getLast?_eq_getLast ys hne] at hg
    cases hg
  | some d =>
    rw [hg] at hc
    simp only [Option.or_some, Option.some_inj] at hc
    rw [← hc]
    exact hys d hg

theorem getLast?_marker_not_slash (m : Char) (q : List Char)
    (hm : (m = '/' : Bool) = false) (hq : ∀ c ∈ q, plainChar c = true) :
    ∀ c, (m :: q).getLast? = some c → (c = '/' : Bool) = false := by
  intro c hc
  cases hq0 : q with
  | nil =>
    rw [hq0] at hc
    obtain rfl : m = c := by injection hc
    exact hm
  | cons a as =>
    rw [hq0, List.getLast?_cons_cons, ← hq0] at hc
    have hqne : q ≠ [] := by rw [hq0]; simp
    exact getLast?_plain_not_slash q hqne hq c hc

theorem getLast?_core_not_slash (owner repo : List Char) (hr : repo ≠ [])
    (hrp : ∀ c ∈ repo, plainChar c = true) :
    ∀ c, (owner ++ '/' :: repo).getLast? = some c → (c = '/' : Bool) = false := by
  have h := getLast?_or_not_slash (owner ++ ['/']) repo hr
    (getLast?_plain_not_slash repo hr hrp)
  rwa [List.append_assoc, List.singleton_append] at h


theorem marker_not_mem (d : Char) (core : List Char)
    (hcore : ∀ c ∈ core, plainChar c = true ∨ c = '/')
    (hd : plainChar d = false) (hds : d ≠ '/')
    (hdg : d ∉ ("github.com".data : List Char)) :
    d ∉ ("github.com".data ++ '/' :: core) := by
  intro hm
  rcases List.mem_append.mp hm with hm | hm
  · exact hdg hm
  · rcases List.mem_cons.mp hm with h0 | hm
    · exact hds h0
    · rcases hcore d hm with hp | h0
      · rw [hd] at hp
        cases hp
      · exact hds h0

theorem marker_not_mem_ext (d m : Char) (core tail : List Char)
    (hcore : ∀ c ∈ core, plainChar c = true ∨ c = '/')
    (htail : ∀ c ∈ tail, plainChar c = true)
    (hd : plainChar d = false) (hds : d ≠ '/') (hdm : d ≠ m)
    (hdg : d ∉ ("github.com".data : List Char)) :
    d ∉ (("github.com".data ++ '/' :: core) ++ m :: tail) := by
  intro hm
  rcases List.mem_append.mp hm with hm | hm
  · exact marker_not_mem d core hcore hd hds hdg hm
  · rcases List.mem_cons.mp hm with h0 | hm
    · exact hdm h0
    · have hp := htail d hm
      rw [hd] at hp
      cases hp

theorem parseHttpUrl_github (core suffix2 : List Char)
    (hcore : ∀ c ∈ core, plainChar c = true ∨ c = '/')
    (hs : suffix2 = [] ∨ (∃ q, suffix2 = '?' :: q ∧ ∀ c ∈ q, plainChar c = true)
        ∨ (∃ f, suffix2 = '#' :: f ∧ ∀ c ∈ f, plainChar c = true)) :
    ∃ sr ha,
      parseHttpUrl ("https://".data ++ ("github.com".data ++ '/' :: (core ++ suffix2)))
        = some { scheme := "https", host := "github.com".data, port := [],
                 path := '/' :: core, search := sr, hash := ha } := by
  have hslash_gh : ('/' : Char) ∉ ("github.com".data : List Char) := by decide
  have hhash_pre : ('#' : Char) ∉ ("github.com".data ++ '/' :: core) :=
    marker_not_mem '#' core hcore (by decide) (by decide) (by decide)
  have hquery_pre : ('?' : Char) ∉ ("github.com".data ++ '/' :: core) :=
    marker_not_mem '?' core hcore (by decide) (by decide) (by decide)
  unfold parseHttpUrl
  rw [schemeSplit_https]
  dsimp only
  rcases hs with rfl | ⟨q, rfl, hq⟩ | ⟨f, rfl, hf⟩
  · rw [List.append_nil]
    rw [breakAtChar_not_mem '#' _ hhash_pre]
    dsimp only
    rw [breakAtChar_not_mem '?' _ hquery_pre]
    dsimp only
    rw [breakAtChar_append_not_mem '/' _ _ hslash_gh, breakAtChar_cons_self]
    dsimp only
    rw [List.append_nil,
      show afterLastChar '@' ("github.com".data) = "github.com".data from by decide,
      show hostPortSplit "https" ("github.com".data)
        = some ("github.com".data, []) from by decide]
    dsimp only
    rw [if_neg (show ¬ ("github.com".data : List Char) = [] from by decide),
      show ("github.com".data).map lowerChar = "github.com".data from by decide]
    exact ⟨[], [], rfl⟩
  · rw [show ("github.com".data ++ '/' :: (core ++ '?' :: q))
        = ("github.com".data ++ '/' :: core) ++ '?' :: q from by simp]
    rw [breakAtChar_not_mem '#' _
      (marker_not_mem_ext '#' '?' core q hcore hq (by decide) (by decide)
        (by decide) (by decide))]
    dsimp only
    rw [breakAtChar_append_not_mem '?' _ _ hquery_pre, breakAtChar_cons_self]
    dsimp only
    rw [List.append_nil]
    rw [breakAtChar_append_not_mem '/' _ _ hslash_gh, breakAtChar_cons_self]
    dsimp only
    rw [List.append_nil,
      show afterLastChar '@' ("github.com".data) = "github.com".data from by decide,
      show hostPortSplit "https" ("github.com".data)
        = some ("github.com".data, []) from by decide]
    dsimp only
    rw [if_neg (show ¬ ("github.com".data : List Char) = [] from by decide),
      show ("github.com".data).map lowerChar = "github.com".data from by decide]
    exact ⟨q, [], rfl⟩
  · rw [show ("github.com".data ++ '/' :: (core ++ '#' :: f))
        = ("github.com".data ++ '/' :: core) ++ '#' :: f from by simp]
    rw [breakAtChar_append_not_mem '#' _ _ hhash_pre, breakAtChar_cons_self]
    dsimp only
    rw [List.append_nil]
    rw [breakAtChar_not_mem '?' _ hquery_pre]
    dsimp only
    rw [breakAtChar_append_not_mem '/' _ _ hslash_gh, breakAtChar_cons_self]
    dsimp only
    rw [List.append_nil,
      show afterLastChar '@' ("github.com".data) = "github.com".data from by decide,
      show hostPortSplit "https" ("github.com".data)
        = some ("github.com".data, []) from by decide]
    dsimp only
    rw [if_neg (show ¬ ("github.com".data : List Char) = [] from by decide),
      show ("github.com".data).map lowerChar = "github.com".data from by decide]
    exact ⟨[], f, rfl⟩


theorem normalizeRepoUrl_canon (owner repo suffix2 : List Char)
    (ho : owner ≠ []) (hr : repo ≠ [])
    (hop : ∀ c ∈ owner, plainChar c = true)
    (hrp : ∀ c ∈ repo, plainChar c = true)
    (hs : suffix2 = [] ∨ (∃ q, suffix2 = '?' :: q ∧ ∀ c ∈ q, plainChar c = true)
        ∨ (∃ f, suffix2 = '#' :: f ∧ ∀ c ∈ f, plainChar c = true)) :
    normalizeRepoUrl (some (String.mk
        ("https://github.com/".data ++ (owner ++ '/' :: repo) ++ suffix2)))
      = some (String.mk ("https://github.com/".data ++ (owner ++ '/' :: repo))) := by
  have hA : ∀ c ∈ ("https://github.com/".data : List Char), jsWS c = false := by decide
  have hcore_ws : ∀ c ∈ owner ++ '/' :: repo, jsWS c = false := by
    intro c hc
    rcases List.mem_append.mp hc with hc | hc
    · exact plainChar_not_ws c (hop c hc)
    · rcases List.mem_cons.mp hc with rfl | hc
      · decide
      · exact plainChar_not_ws c (hrp c hc)
  have hAc_ws : ∀ c ∈ ("https://github.com/".data ++ (owner ++ '/' :: repo)),
      jsWS c = false := by
    intro c hc
    rcases List.mem_append.mp hc with hc | hc
    · exact hA c hc
    · exact hcore_ws c hc
  have hhead : ∀ c, ("https://github.com/".data ++ (owner ++ '/' :: repo)).head?
      = some c → (c = '/' : Bool) = false := by
    intro c hc
    rw [show (("https://github.com/".data ++ (owner ++ '/' :: repo)) : List Char).head?
      = some 'h' from rfl] at hc
    obtain rfl : 'h' = c := by injection hc
    decide
  have hlast : ∀ c, ("https://github.com/".data ++ (owner ++ '/' :: repo)).getLast?
      = some c → (c = '/' : Bool) = false :=
    getLast?_or_not_slash _ _ (by simp) (getLast?_core_not_slash owner repo hr hrp)
  have hcore : ∀ c ∈ owner ++ '/' :: repo, plainChar c = true ∨ c = '/' := by
    intro c hc
    rcases List.mem_append.mp hc with hc | hc
    · exact Or.inl (hop c hc)
    · rcases List.mem_cons.mp hc with rfl | hc
      · exact Or.inr rfl
      · exact Or.inl (hrp c hc)
  have hsh0 : ("https://github.com/".data : List Char)
      = "https://".data ++ ("github.com".data ++ ['/']) := rfl
  have hne : ¬ ("https://github.com/".data ++ (owner ++ '/' :: repo)) = [] := by
    intro h
    have h2 := congrArg List.head? h
    rw [show (("https://github.com/".data ++ (owner ++ '/' :: repo)) : List Char).head?
      = some 'h' from rfl] at h2
    exact Option.noConfusion h2
  rcases hs with rfl | ⟨q, rfl, hq⟩ | ⟨f, rfl, hf⟩
  · rw [List.append_nil]
    obtain ⟨sr, ha, hp⟩ := parseHttpUrl_github (owner ++ '/' :: repo) [] hcore (Or.inl rfl)
    rw [List.append_nil] at hp
    have hsh : ("https://github.com/".data ++ (owner ++ '/' :: repo) : List Char)
        = "https://".data ++ ("github.com".data ++ '/' :: (owner ++ '/' :: repo)) := by
      rw [hsh0]
      simp [List.append_assoc]
    unfold normalizeRepoUrl
    dsimp only
    rw [trimChars_eq_self _ hAc_ws, stripEdgeSlashes_eq_self _ hhead hlast]
    rw [if_neg hne]
    rw [hsh, matchesHttpScheme_https, if_pos rfl, hp]
    dsimp only
    rw [show ("github.com".data).isSuffixOf ("github.com".data : List Char)
      = true from by decide, if_pos rfl]
    unfold urlToString
    dsimp only
    rw [if_pos rfl, if_neg (List.cons_ne_nil _ _), if_pos rfl, if_pos rfl]
    simp
  · have hall : ∀ c ∈ (("https://github.com/".data ++ (owner ++ '/' :: repo)) ++ '?' :: q),
        jsWS c = false := by
      intro c hc
      rcases List.mem_append.mp hc with hc | hc
      · exact hAc_ws c hc
      · rcases List.mem_cons.mp hc with rfl | hc
        · decide
        · exact plainChar_not_ws c (hq c hc)
    have hhead2 : ∀ c, ((("https://github.com/".data ++ (owner ++ '/' :: repo)) ++ '?' :: q)).head?
        = some c → (c = '/' : Bool) = false := by
      intro c hc
      rw [show ((("https://github.com/".data ++ (owner ++ '/' :: repo)) ++ '?' :: q) : List Char).head?
        = some 'h' from rfl] at hc
      obtain rfl : 'h' = c := by injection hc
      decide
    have hlast2 := getLast?_or_not_slash ("https://github.com/".data ++ (owner ++ '/' :: repo))
      ('?' :: q) (List.cons_ne_nil _ _) (getLast?_marker_not_slash '?' q (by decide) hq)
    have hne2 : ¬ (("https://github.com/".data ++ (owner ++ '/' :: repo)) ++ '?' :: q) = [] := by
      intro h
      have h2 := congrArg List.head? h
      rw [show ((("https://github.com/".data ++ (owner ++ '/' :: repo)) ++ '?' :: q) : List Char).head?
        = some 'h' from rfl] at h2
      exact Option.noConfusion h2
    obtain ⟨sr, ha, hp⟩ := parseHttpUrl_github (owner ++ '/' :: repo) ('?' :: q) hcore
      (Or.inr (Or.inl ⟨q, rfl, hq⟩))
    have hsh : ((("https://github.com/".data ++ (owner ++ '/' :: repo)) ++ '?' :: q) : List Char)
        = "https://".data ++ ("github.com".data ++ '/' :: ((owner ++ '/' :: repo) ++ '?' :: q)) := by
      rw [hsh0]
      simp [List.append_assoc]
    unfold normalizeRepoUrl
    dsimp only
    rw [trimChars_eq_self _ hall, stripEdgeSlashes_eq_self _ hhead2 hlast2]
    rw [if_neg hne2]
    rw [hsh, matchesHttpScheme_https, if_pos rfl, hp]
    dsimp only
    rw [show ("github.com".data).isSuffixOf ("github.com".data : List Char)
      = true from by decide, if_pos rfl]
    unfold urlToString
    dsimp only
    rw [if_pos rfl, if_neg (List.cons_ne_nil _ _), if_pos rfl, if_pos rfl]
    simp
  · have hall : ∀ c ∈ (("https://github.com/".data ++ (owner ++ '/' :: repo)) ++ '#' :: f),
        jsWS c = false := by
      intro c hc
      rcases List.mem_append.mp hc with hc | hc
      · exact hAc_ws c hc
      · rcases List.mem_cons.mp hc with rfl | hc
        · decide
        · exact plainChar_not_ws c (hf c hc)
    have hhead2 : ∀ c, ((("https://github.com/".data ++ (owner ++ '/' :: repo)) ++ '#' :: f)).head?
        = some c → (c = '/' : Bool) = false := by
      intro c hc
      rw [show ((("https://github.com/".data ++ (owner ++ '/' :: repo)) ++ '#' :: f) : List Char).head?
        = some 'h' from rfl] at hc
      obtain rfl : 'h' = c := by injection hc
      decide
    have hlast2 := getLast?_or_not_slash ("https://github.com/".data ++ (owner ++ '/' :: repo))
      ('#' :: f) (List.cons_ne_nil _ _) (getLast?_marker_not_slash '#' f (by decide) hf)
    have hne2 : ¬ (("https://github.com/".data ++ (owner ++ '/' :: repo)) ++ '#' :: f) = [] := by
      intro h
      have h2 := congrArg List.head? h
      rw [show ((("https://github.com/".data ++ (owner ++ '/' :: repo)) ++ '#' :: f) : List Char).head?
        = some 'h' from rfl] at h2
      exact Option.noConfusion h2
    obtain ⟨sr, ha, hp⟩ := parseHttpUrl_github (owner ++ '/' :: repo) ('#' :: f) hcore
      (Or.inr (Or.inr ⟨f, rfl, hf⟩))
    have hsh : ((("https://github.com/".data ++ (owner ++ '/' :: repo)) ++ '#' :: f) : List Char)
        = "https://".data ++ ("github.com".data ++ '/' :: ((owner ++ '/' :: repo) ++ '#' :: f)) := by
      rw [hsh0]
      simp [List.append_assoc]
    unfold normalizeRepoUrl
    dsimp only
    rw [trimChars_eq_self _ hall, stripEdgeSlashes_eq_self _ hhead2 hlast2]
    rw [if_neg hne2]
    rw [hsh, matchesHttpScheme_https, if_pos rfl, hp]
    dsimp only
    rw [show ("github.com".data).isSuffixOf ("github.com".data : List Char)
      = true from by decide, if_pos rfl]
    unfold urlToString
    dsimp only
    rw [if_pos rfl, if_neg (List.cons_ne_nil _ _), if_pos rfl, if_pos rfl]
    simp


theorem normalizeRepoUrl_drop_trailing_slash (l : List Char)
    (hws : ∀ c ∈ l, jsWS c = false)
    (h1 : ∀ c, l.head? = some c → (c = '/' : Bool) = false)
    (h2 : ∀ c, l.getLast? = some c → (c = '/' : Bool) = false) :
    normalizeRepoUrl (some (String.mk (l ++ ['/'])))
      = normalizeRepoUrl (some (String.mk l)) := by
  have hall : ∀ c ∈ l ++ ['/'], jsWS c = false := by
    intro c hc
    rcases List.mem_append.mp hc with hc | hc
    · exact hws c hc
    · rcases List.mem_cons.mp hc with rfl | hc
      · decide
      · cases hc
  unfold normalizeRepoUrl
  dsimp only
  rw [trimChars_eq_self _ hall, trimChars_eq_self _ hws,
    stripEdgeSlashes_append_slash l h1 h2, stripEdgeSlashes_eq_self l h1 h2]

theorem normalizeRepoUrl_full_aux (owner repo suffix : List Char)
    (ho : owner ≠ []) (hr : repo ≠ [])
    (hop : ∀ c ∈ owner, plainChar c = true)
    (hrp : ∀ c ∈ repo, plainChar c = true)
    (hs : suffix = [] ∨ suffix = ['/']
        ∨ (∃ q, suffix = '?' :: q ∧ ∀ c ∈ q, plainChar c = true)
        ∨ (∃ f, suffix = '#' :: f ∧ ∀ c ∈ f, plainChar c = true)) :
    normalizeRepoUrl (some (String.mk
        ("https://github.com/".data ++ (owner ++ '/' :: repo) ++ suffix)))
      = some (String.mk ("https://github.com/".data ++ (owner ++ '/' :: repo))) := by
  rcases hs with h4 | rfl | h4 | h4
  · exact normalizeRepoUrl_canon owner repo suffix ho hr hop hrp (Or.inl h4)
  · have hA : ∀ c ∈ ("https://github.com/".data : List Char), jsWS c = false := by decide
    have hAc_ws : ∀ c ∈ ("https://github.com/".data ++ (owner ++ '/' :: repo)),
        jsWS c = false := by
      intro c hc
      rcases List.mem_append.mp hc with hc | hc
      · exact hA c hc
      · rcases List.mem_append.mp hc with hc | hc
        · exact plainChar_not_ws c (hop c hc)
        · rcases List.mem_cons.mp hc with rfl | hc
          · decide
          · exact plainChar_not_ws c (hrp c hc)
    have hhead : ∀ c, ("https://github.com/".data ++ (owner ++ '/' :: repo)).head?
        = some c → (c = '/' : Bool) = false := by
      intro c hc
      rw [show (("https://github.com/".data ++ (owner ++ '/' :: repo)) : List Char).head?
        = some 'h' from rfl] at hc
      obtain rfl : 'h' = c := by injection hc
      decide
    have hlast : ∀ c, ("https://github.com/".data ++ (owner ++ '/' :: repo)).getLast?
        = some c → (c = '/' : Bool) = false :=
      getLast?_or_not_slash _ _ (by simp) (getLast?_core_not_slash owner repo hr hrp)
    have hbase := normalizeRepoUrl_canon owner repo [] ho hr hop hrp (Or.inl rfl)
    rw [List.append_nil] at hbase
    rw [normalizeRepoUrl_drop_trailing_slash _ hAc_ws hhead hlast]
    exact hbase
  · exact normalizeRepoUrl_canon owner repo suffix ho hr hop hrp (Or.inr (Or.inl h4))
  · exact normalizeRepoUrl_canon owner repo suffix ho hr hop hrp (Or.inr (Or.inr h4))

theorem normalizeRepoUrl_noslash_aux (s : List Char) (hne : s ≠ [])
    (hsp : ∀ c ∈ s, plainChar c = true) :
    normalizeRepoUrl (some (String.mk s)) = none := by
  obtain ⟨c0, cs, rfl⟩ := List.exists_cons_of_ne_nil hne
  have h1 : ∀ c, (c0 :: cs).head? = some c → (c = '/' : Bool) = false := by
    intro c hc
    obtain rfl : c0 = c := by injection hc
    simp only [decide_eq_false_iff_not]
    exact plainChar_ne_slash _ (hsp _ (List.mem_cons_self _ _))
  have h2 := getLast?_plain_not_slash (c0 :: cs) (List.cons_ne_nil _ _) hsp
  have hm : matchesHttpScheme (c0 :: cs) = false :=
    matchesHttpScheme_false_of_no_colon _
      (no_colon_map_lower _ (fun c hc => Or.inl (hsp c hc)))
  have hcont : ¬ (c0 :: cs).contains '/' = true := by
    intro hcon
    have hmem : ('/' : Char) ∈ c0 :: cs := List.elem_iff.mp hcon
    exact plainChar_ne_slash '/' (hsp '/' hmem) rfl
  unfold normalizeRepoUrl
  dsimp only
  rw [trimChars_eq_self _ (fun c hc => plainChar_not_ws c (hsp c hc))]
  rw [stripEdgeSlashes_eq_self _ h1 h2]
  rw [if_neg (List.cons_ne_nil _ _)]
  rw [hm, if_neg (show ¬ false = true from by simp)]
  rw [if_neg hcont]

/-- C2 (amended): `normalizeRepoUrl` canonicalizes (1) every bare
`owner/repo` string of plain characters to
`https://github.com/owner/repo`, and (2) every full
`https://github.com/owner/repo` URL whose trailing slash, query, or
fragment sits at the very end of the raw input to the same canonical
string; (3) a non-empty plain string without a slash and (4) a missing
value yield `null`.  The original claim's stronger clauses fail: the
host check is a suffix match (see the counterexample), and a path
trailing slash directly before a query survives. -/
theorem repo_url_normalization :
    (∀ owner repo : List Char, owner ≠ [] → repo ≠ [] →
        (∀ c ∈ owner, plainChar c = true) → (∀ c ∈ repo, plainChar c = true) →
        normalizeRepoUrl (some (String.mk (owner ++ '/' :: repo)))
          = some (String.mk ("https://github.com/".data ++ (owner ++ '/' :: repo)))) ∧
    (∀ owner repo suffix : List Char, owner ≠ [] → repo ≠ [] →
        (∀ c ∈ owner, plainChar c = true) → (∀ c ∈ repo, plainChar c = true) →
        (suffix = [] ∨ suffix = ['/']
          ∨ (∃ q, suffix = '?' :: q ∧ ∀ c ∈ q, plainChar c = true)
          ∨ (∃ f, suffix = '#' :: f ∧ ∀ c ∈ f, plainChar c = true)) →
        normalizeRepoUrl (some (String.mk
            ("https://github.com/".data ++ (owner ++ '/' :: repo) ++ suffix)))
          = some (String.mk ("https://github.com/".data ++ (owner ++ '/' :: repo)))) ∧
    (∀ s : List Char, s ≠ [] → (∀ c ∈ s, plainChar c = true) →
        normalizeRepoUrl (some (String.mk s)) = none) ∧
    normalizeRepoUrl none = none :=
  ⟨fun owner repo ho hr hop hrp => normalizeRepoUrl_bare_aux owner repo ho hr hop hrp,
   fun owner repo suffix ho hr hop hrp hs =>
     normalizeRepoUrl_full_aux owner repo suffix ho hr hop hrp hs,
   fun s hne hsp => normalizeRepoUrl_noslash_aux s hne hsp,
   rfl⟩

theorem repo_url_normalization_witness :
    normalizeRepoUrl (some (String.mk
        ("https://github.com/".data ++ (['a'] ++ '/' :: ['b']) ++ '?' :: ['x'])))
      = some (String.mk ("https://github.com/".data ++ (['a'] ++ '/' :: ['b']))) :=
  repo_url_normalization.2.1 ['a'] ['b'] ('?' :: ['x'])
    (by decide) (by decide) (by decide) (by decide)
    (Or.inr (Or.inr (Or.inl ⟨['x'], rfl, by decide⟩)))

/-- C2 counterexample to the original claim: the hostname check is
`endsWith("github.com")`, so `evilgithub.com` — a hostname that is not
`github.com` — is accepted and echoed back instead of yielding `null`;
and a trailing slash before a query string survives into the output, so
the result is not the canonical string without a trailing slash. -/
theorem repo_url_normalization_counterexample :
    normalizeRepoUrl (some "https://evilgithub.com/a/b")
        = some "https://evilgithub.com/a/b" ∧
    normalizeRepoUrl (some "https://github.com/a/b/?x=1")
        = some "https://github.com/a/b/" := by
  decide

end ContribClub
